import Mathlib

/-!
Verification of the gazette-reconstruction pipeline: line classification
(`Entities.py`), index relation extraction (`relations_extractor.py`), body
alignment and segmentation (`body_extraction.py`, `body_extractionIII.py`,
`serie3_splitter/`), and the shared fuzzy-matching normalizers
(`serie3_splitter/normalizers.py`, `serie3_splitter/matching.py`).

Python strings are embedded as `List Char`; character offsets are `Nat`
indices into that list.  Python float ratios are embedded as exact rationals.
Unicode-dependent library behaviour (`str.strip`, `str.lower`,
`unicodedata` normalization, `re` character classes) is modelled charwise on
the Latin-1 repertoire the corpus uses; each such model is documented at its
definition.
-/

set_option maxRecDepth 4000

namespace Gazette

/-- Python `str` embedded as a list of characters. -/
abbrev Str := List Char

/-- Model of Python's `str.isspace` / regex `\s` on the characters that occur
in the corpus: ASCII whitespace, the C1 separators, NBSP and the common
Unicode space characters. -/
def isPySpace (c : Char) : Bool :=
  c = ' ' ∨ c = '\t' ∨ c = '\n' ∨ c = '\r' ∨ c = '\x0b' ∨ c = '\x0c' ∨
  (0x1c ≤ c.toNat ∧ c.toNat ≤ 0x1f) ∨ c.toNat = 0x85 ∨ c.toNat = 0xa0 ∨
  c.toNat = 0x1680 ∨ (0x2000 ≤ c.toNat ∧ c.toNat ≤ 0x200a) ∨
  c.toNat = 0x2028 ∨ c.toNat = 0x2029 ∨ c.toNat = 0x202f ∨
  c.toNat = 0x205f ∨ c.toNat = 0x3000

theorem dropWhile_length_le {α : Type} (p : α → Bool) (l : List α) :
    (l.dropWhile p).length ≤ l.length := by
  induction l with
  | nil => simp
  | cons a l ih =>
    rw [List.dropWhile_cons]
    by_cases h : p a
    · simp only [h, if_pos]
      exact ih.trans (by simp)
    · simp [h]

/-- `s.lstrip()`. -/
def lstrip (s : Str) : Str := s.dropWhile isPySpace

/-- `s.rstrip()`. -/
def rstrip (s : Str) : Str := (s.reverse.dropWhile isPySpace).reverse

/-- `s.strip()`. -/
def pyStrip (s : Str) : Str := rstrip (lstrip s)

/-- Accumulator pass for `s.split()`: `cur` is the reversed current word. -/
def pyWordsAux : Str → Str → List Str
  | [], cur => if cur = [] then [] else [cur.reverse]
  | c :: rest, cur =>
    if isPySpace c then
      if cur = [] then pyWordsAux rest [] else cur.reverse :: pyWordsAux rest []
    else pyWordsAux rest (c :: cur)

/-- `s.split()`: split on runs of whitespace, discarding empty pieces. -/
def pyWords (s : Str) : List Str := pyWordsAux s []

/-- `" ".join(pieces)`. -/
def joinSpace : List Str → Str
  | [] => []
  | [w] => w
  | w :: rest => w ++ ' ' :: joinSpace rest

/-- `" ".join(s.split())`. -/
def collapseWS (s : Str) : Str := joinSpace (pyWords s)

/-- Model of Python `str.lower` on ASCII and the Latin-1 letters
(`À`..`Þ` map to `à`..`þ`; `×` U+00D7 is not a letter and is unchanged). -/
def pyLower (c : Char) : Char :=
  if 'A' ≤ c ∧ c ≤ 'Z' then Char.ofNat (c.toNat + 32)
  else if 0xc0 ≤ c.toNat ∧ c.toNat ≤ 0xde ∧ c.toNat ≠ 0xd7 then Char.ofNat (c.toNat + 32)
  else if c = 'Ÿ' then 'ÿ'
  else c

def lowerStr (s : Str) : Str := s.map pyLower

/-- Model of `unicodedata` accent folding on the Latin-1 precomposed letters:
NFD decomposition followed by removal of combining marks sends each
precomposed Latin-1 letter to its ASCII base letter and leaves the rest of
the repertoire unchanged (`ß`, `æ`, `ø`, … have no canonical decomposition). -/
def accentFold (c : Char) : Char :=
  match c with
  | 'À' | 'Á' | 'Â' | 'Ã' | 'Ä' | 'Å' => 'A'
  | 'Ç' => 'C'
  | 'È' | 'É' | 'Ê' | 'Ë' => 'E'
  | 'Ì' | 'Í' | 'Î' | 'Ï' => 'I'
  | 'Ñ' => 'N'
  | 'Ò' | 'Ó' | 'Ô' | 'Õ' | 'Ö' => 'O'
  | 'Ù' | 'Ú' | 'Û' | 'Ü' => 'U'
  | 'Ý' | 'Ÿ' => 'Y'
  | 'à' | 'á' | 'â' | 'ã' | 'ä' | 'å' => 'a'
  | 'ç' => 'c'
  | 'è' | 'é' | 'ê' | 'ë' => 'e'
  | 'ì' | 'í' | 'î' | 'ï' => 'i'
  | 'ñ' => 'n'
  | 'ò' | 'ó' | 'ô' | 'õ' | 'ö' => 'o'
  | 'ù' | 'ú' | 'û' | 'ü' => 'u'
  | 'ý' | 'ÿ' => 'y'
  | c => c

/-- Combining diacritical marks (category Mn on the range the corpus uses). -/
def isCombining (c : Char) : Bool := 0x300 ≤ c.toNat ∧ c.toNat ≤ 0x36f

/-- `_strip_accents` (both `body_extraction.py` and
`serie3_splitter/normalizers.py`): NFD-normalize and drop combining marks,
modelled charwise via `accentFold`. -/
def strip_accents (s : Str) : Str :=
  (s.map accentFold).filter (fun c => ¬ isCombining c)

/-- Model of Python `str.isalpha` on the Latin-1 repertoire:
ASCII letters plus `ª`, `µ`, `º` and the Latin-1 letters `À`..`ÿ`
without the operators `×` and `÷`. -/
def isAlphaPy (c : Char) : Bool :=
  ('A' ≤ c ∧ c ≤ 'Z') ∨ ('a' ≤ c ∧ c ≤ 'z') ∨
  c.toNat = 0xaa ∨ c.toNat = 0xb5 ∨ c.toNat = 0xba ∨
  (0xc0 ≤ c.toNat ∧ c.toNat ≤ 0xff ∧ c.toNat ≠ 0xd7 ∧ c.toNat ≠ 0xf7) ∨
  c.toNat = 0x178

/-- Model of `unicodedata.category(c) == 'Ll'` (lowercase letter) on the
Latin-1 repertoire: ASCII `a`..`z`, `µ`, and `ß`..`ÿ` without `÷`. -/
def isLl (c : Char) : Bool :=
  ('a' ≤ c ∧ c ≤ 'z') ∨ c.toNat = 0xb5 ∨
  (0xdf ≤ c.toNat ∧ c.toNat ≤ 0xff ∧ c.toNat ≠ 0xf7)

/-- Substring test, Python's `needle in hay` on strings. -/
def strContains (hay needle : Str) : Bool :=
  if needle.length = 0 then true
  else match hay with
    | [] => false
    | _ :: rest => (needle.isPrefixOf hay) || strContains rest needle

/-- `doc_text[a:b]` (Python slice semantics for `0 ≤ a ≤ b`; an empty list
results when `b ≤ a`). -/
def pySlice (s : Str) (a b : Nat) : Str := (s.drop a).take (b - a)

section StableSort

variable {α : Type} (le : α → α → Bool)

/-- Insert `a` after every element `b` with `le b a`; combined with a left
fold this is a stable insertion sort, matching Python's stable `list.sort`. -/
def insertLe (a : α) : List α → List α
  | [] => [a]
  | b :: l => if le b a then b :: insertLe a l else a :: b :: l

/-- Stable sort (insertion sort via a left fold). -/
def stableSort (l : List α) : List α := l.foldl (fun acc a => insertLe le a acc) []

theorem insertLe_perm (a : α) (l : List α) : (insertLe le a l).Perm (a :: l) := by
  induction l with
  | nil => simp [insertLe]
  | cons b l ih =>
    simp only [insertLe]
    by_cases h : le b a
    · simp only [h, if_pos]
      exact (List.Perm.cons b ih).trans (List.Perm.swap a b l)
    · simp [h]

theorem stableSort_perm (l : List α) : (stableSort le l).Perm l := by
  suffices h : ∀ (l acc : List α), (l.foldl (fun acc a => insertLe le a acc) acc).Perm (acc ++ l) by
    simpa using h l []
  intro l
  induction l with
  | nil => simp
  | cons a l ih =>
    intro acc
    simp only [List.foldl_cons]
    refine (ih (insertLe le a acc)).trans ?_
    have h1 : (insertLe le a acc ++ l).Perm ((a :: acc) ++ l) :=
      (insertLe_perm le a acc).append_right l
    refine h1.trans ?_
    simp only [List.cons_append]
    exact (List.perm_middle).symm

theorem insertLe_sorted (htot : ∀ a b, le a b ∨ le b a)
    (htrans : ∀ a b c, le a b → le b c → le a c)
    (a : α) (l : List α) (hl : l.Pairwise (fun x y => le x y)) :
    (insertLe le a l).Pairwise (fun x y => le x y) := by
  induction l with
  | nil => simp [insertLe]
  | cons b l ih =>
    rcases List.pairwise_cons.mp hl with ⟨hb, hl'⟩
    simp only [insertLe]
    by_cases h : le b a
    · simp only [h, if_pos]
      refine List.pairwise_cons.mpr ⟨?_, ih hl'⟩
      intro x hx
      have := (insertLe_perm le a l).mem_iff.mp hx
      rcases List.mem_cons.mp this with rfl | hx'
      · exact h
      · exact hb x hx'
    · simp only [h, if_neg, Bool.false_eq_true, not_false_iff]
      have hab : le a b := by
        rcases htot a b with h1 | h1
        · exact h1
        · exact absurd h1 h
      refine List.pairwise_cons.mpr ⟨?_, hl⟩
      intro x hx
      rcases List.mem_cons.mp hx with rfl | hx'
      · exact hab
      · exact htrans a b x hab (hb x hx')

theorem stableSort_sorted (htot : ∀ a b, le a b ∨ le b a)
    (htrans : ∀ a b c, le a b → le b c → le a c) (l : List α) :
    (stableSort le l).Pairwise (fun x y => le x y) := by
  suffices h : ∀ (l acc : List α), acc.Pairwise (fun x y => le x y) →
      (l.foldl (fun acc a => insertLe le a acc) acc).Pairwise (fun x y => le x y) by
    exact h l [] (by simp)
  intro l
  induction l with
  | nil => intro acc h; simpa using h
  | cons a l ih =>
    intro acc hacc
    exact ih _ (insertLe_sorted le htot htrans a acc hacc)

end StableSort

theorem dropWhile_idem {α : Type} (p : α → Bool) (l : List α) :
    (l.dropWhile p).dropWhile p = l.dropWhile p := by
  induction l with
  | nil => simp
  | cons a l ih =>
    rw [List.dropWhile_cons]
    by_cases h : p a
    · simp [h, ih]
    · simp [List.dropWhile_cons, h]

theorem lstrip_prefix_fixed (l : Str) (h : lstrip l = l) (y : Str) (hy : y <+: l) :
    lstrip y = y := by
  rcases hy with ⟨t, rfl⟩
  cases y with
  | nil => rfl
  | cons a y' =>
    unfold lstrip at h ⊢
    simp only [List.cons_append] at h
    rw [List.dropWhile_cons] at h ⊢
    by_cases ha : isPySpace a
    · exfalso
      simp only [ha, if_pos] at h
      have hlen := congrArg List.length h
      have hle := dropWhile_length_le isPySpace (y' ++ t)
      simp only [List.length_append, List.length_cons] at hlen hle
      omega
    · simp [ha]

theorem rstrip_isPrefixOfSelf (l : Str) : rstrip l <+: l := by
  unfold rstrip
  rcases List.dropWhile_suffix (l := l.reverse) (p := isPySpace) with ⟨t, ht⟩
  refine ⟨t.reverse, ?_⟩
  have h := congrArg List.reverse ht
  simpa using h

theorem pyStrip_idem (s : Str) : pyStrip (pyStrip s) = pyStrip s := by
  unfold pyStrip
  have h1 : lstrip (lstrip s) = lstrip s := dropWhile_idem isPySpace s
  have h2 : lstrip (rstrip (lstrip s)) = rstrip (lstrip s) :=
    lstrip_prefix_fixed (lstrip s) h1 _ (rstrip_isPrefixOfSelf (lstrip s))
  rw [h2]
  unfold rstrip
  rw [List.reverse_reverse, dropWhile_idem]

/-! ### Line classifier (`Entities.py`) -/

/-- `_line_has_lowercase`: does the line contain a character that is
`isalpha` and in Unicode category Ll? -/
def line_has_lowercase (line : Str) : Bool :=
  line.any (fun c => isAlphaPy c && isLl c)

/-- `_eligible_line`: non-empty after strip, contains letters, contains a
space, and no lowercase letter anywhere in the argument. -/
def eligible_line (line : Str) : Bool :=
  let stripped := pyStrip line
  stripped ≠ [] && stripped.any isAlphaPy && stripped.contains ' ' &&
    ! line_has_lowercase line

/-- Organization-header labels assigned by the `allcaps_entity` component. -/
inductive OrgHeaderLabel
  | orgHeader
  | starredOrgHeader
deriving DecidableEq, Repr

/-- The per-line labelling decision of `allcaps_entity`
(`Entities.py`, lines 104–109): strip the line content, test
`_eligible_line`, and label starred iff the stripped line contains `*`. -/
def allcaps_line_label (content : Str) : Option OrgHeaderLabel :=
  let stripped := pyStrip content
  if eligible_line stripped then
    if stripped.contains '*' then some .starredOrgHeader else some .orgHeader
  else none

theorem isLl_isAlphaPy {c : Char} (h : isLl c = true) : isAlphaPy c = true := by
  unfold isLl at h
  unfold isAlphaPy
  simp only [Bool.or_eq_true, decide_eq_true_eq] at h ⊢
  rcases h with h | h | h
  · right; left; exact h
  · right; right; right; left; exact h
  · right; right; right; right; right; left
    refine ⟨by omega, by omega, by omega, by omega⟩

/-- **C7.** A line is labelled as an organization header
(`OrgHeader` or `StarredOrgHeader`) iff, after stripping, it is non-empty,
contains at least one letter, contains at least one space character, and
contains no character of Unicode category Ll (language-aware lowercase);
an eligible line is labelled `StarredOrgHeader` exactly when it contains an
asterisk, and `OrgHeader` otherwise. -/
theorem allcaps_line_label_characterization (content : Str) :
    ((allcaps_line_label content).isSome ↔
      (pyStrip content ≠ [] ∧ (∃ c ∈ pyStrip content, isAlphaPy c) ∧
        ' ' ∈ pyStrip content ∧ ∀ c ∈ pyStrip content, ¬ isLl c)) ∧
    (allcaps_line_label content = some .starredOrgHeader ↔
      ((allcaps_line_label content).isSome ∧ '*' ∈ pyStrip content)) ∧
    (allcaps_line_label content = some .orgHeader ↔
      ((allcaps_line_label content).isSome ∧ '*' ∉ pyStrip content)) := by
  have hidem : pyStrip (pyStrip content) = pyStrip content := pyStrip_idem content
  have helig : eligible_line (pyStrip content) = true ↔
      (pyStrip content ≠ [] ∧ (∃ c ∈ pyStrip content, isAlphaPy c) ∧
        ' ' ∈ pyStrip content ∧ ∀ c ∈ pyStrip content, ¬ isLl c) := by
    unfold eligible_line line_has_lowercase
    rw [hidem]
    simp only [Bool.and_eq_true, Bool.not_eq_true', List.any_eq_false,
      List.any_eq_true, ne_eq, decide_eq_true_eq, ← List.elem_iff]
    constructor
    · rintro ⟨⟨⟨h1, h2⟩, h3⟩, h4⟩
      refine ⟨by simpa using h1, h2, h3, ?_⟩
      intro c hc hll
      have hb := h4 c hc
      rw [isLl_isAlphaPy hll, hll] at hb
      simp at hb
    · rintro ⟨h1, h2, h3, h4⟩
      refine ⟨⟨⟨by simpa using h1, h2⟩, h3⟩, ?_⟩
      intro c hc
      have := h4 c hc
      simp only [Bool.not_eq_true] at this
      simp [this]
  have hmem : ∀ c : Char, (pyStrip content).contains c = true ↔ c ∈ pyStrip content :=
    fun c => List.elem_iff
  unfold allcaps_line_label
  by_cases he : eligible_line (pyStrip content) = true
  · rw [if_pos he]
    by_cases hs : (pyStrip content).contains '*'
    · rw [if_pos hs]
      refine ⟨⟨fun _ => helig.mp he, fun _ => rfl⟩, ?_, ?_⟩
      · exact ⟨fun _ => ⟨rfl, (hmem '*').mp hs⟩, fun _ => rfl⟩
      · constructor
        · intro h; cases h
        · intro h; exact absurd ((hmem '*').mp hs) h.2
    · rw [if_neg hs]
      refine ⟨⟨fun _ => helig.mp he, fun _ => rfl⟩, ?_, ?_⟩
      · constructor
        · intro h; cases h
        · intro h
          exact absurd h.2 (fun hm => hs ((hmem '*').mpr hm))
      · exact ⟨fun _ => ⟨rfl, fun hm => hs ((hmem '*').mpr hm)⟩, fun _ => rfl⟩
  · rw [if_neg he]
    refine ⟨?_, ?_, ?_⟩
    · constructor
      · intro h; simp at h
      · intro hcontra; exact absurd (helig.mpr hcontra) he
    · constructor
      · intro h; cases h
      · intro h; simp at h
    · constructor
      · intro h; cases h
      · intro h; simp at h

/-! ### Normalization helpers of `body_extraction.py` -/

/-- `_strip_markdown_bold`: `s.replace("**", "").strip()`. -/
def removeStarStar : Str → Str
  | '*' :: '*' :: rest => removeStarStar rest
  | c :: rest => c :: removeStarStar rest
  | [] => []

def strip_markdown_bold (s : Str) : Str := pyStrip (removeStarStar s)

/-- Flagged pass of `re.sub(r"\s+", " ", s)`: `inRun` records whether the
previous character was whitespace (its run already emitted one space). -/
def wsRunsAux : Str → Bool → Str
  | [], _ => []
  | c :: rest, inRun =>
    if isPySpace c then
      if inRun then wsRunsAux rest true else ' ' :: wsRunsAux rest true
    else c :: wsRunsAux rest false

/-- Replace every whitespace run by a single space (`re.sub(r"\s+", " ", s)`). -/
def wsRunsToSpace (s : Str) : Str := wsRunsAux s false

/-- `_collapse_spaces`: `re.sub(r"\s+", " ", s).strip()`. -/
def collapse_spaces (s : Str) : Str := pyStrip (wsRunsToSpace s)

/-- The capital letters of `_join_spaced_caps` (`A-ZÁÂÃÀÇÉÊÍÓÔÕÚÜ`). -/
def isJscCap (c : Char) : Bool :=
  ('A' ≤ c ∧ c ≤ 'Z') ∨ c = 'Á' ∨ c = 'Â' ∨ c = 'Ã' ∨ c = 'À' ∨ c = 'Ç' ∨
  c = 'É' ∨ c = 'Ê' ∨ c = 'Í' ∨ c = 'Ó' ∨ c = 'Ô' ∨ c = 'Õ' ∨ c = 'Ú' ∨ c = 'Ü'

/-- One pass of `re.sub(rf"([ {caps}])\s(?=[{caps}])", r"\1", s)`: drop a
single whitespace character that is preceded by a space or capital and
followed by a capital (lookahead not consumed). -/
def jscStep : Str → Str
  | a :: b :: c :: rest =>
    if (a = ' ' ∨ isJscCap a) ∧ isPySpace b ∧ isJscCap c then a :: jscStep (c :: rest)
    else a :: jscStep (b :: c :: rest)
  | s => s

theorem jscStep_shrinks (s : Str) : jscStep s = s ∨ (jscStep s).length < s.length := by
  induction s using jscStep.induct with
  | case1 a b c rest hcond ih =>
    right
    rw [jscStep.eq_def]
    dsimp only
    rw [if_pos hcond]
    rcases ih with h | h
    · rw [h]; simp only [List.length_cons]; omega
    · simp only [List.length_cons] at h ⊢; omega
  | case2 a b c rest hcond ih =>
    rw [jscStep.eq_def]
    dsimp only
    rw [if_neg hcond]
    rcases ih with h | h
    · left; rw [h]
    · right; simp only [List.length_cons] at h ⊢; omega
  | case3 s hs =>
    left
    rw [jscStep.eq_def]
    cases s with
    | nil => rfl
    | cons a t =>
      cases t with
      | nil => rfl
      | cons b t2 =>
        cases t2 with
        | nil => rfl
        | cons c rest => exact absurd rfl (hs a b c rest)

/-- Iterate `jscStep` until it no longer changes the string, with explicit
fuel;  each productive step strictly shrinks the string. -/
def jscIter : Nat → Str → Str
  | 0, s => s
  | fuel + 1, s => if jscStep s = s then s else jscIter fuel (jscStep s)

/-- `_join_spaced_caps`: iterate the substitution pass to a fixed point
(the Python loop `while prev != out`); `s.length` steps of fuel suffice
because every productive pass strictly shrinks the string. -/
def join_spaced_caps (s : Str) : Str := jscIter s.length s

/-- `normalize_text` (`body_extraction.py`). -/
def normalize_text (s : Str) : Str :=
  join_spaced_caps (collapse_spaces (strip_markdown_bold s))

def isAsciiAlnum (c : Char) : Bool :=
  ('A' ≤ c ∧ c ≤ 'Z') ∨ ('a' ≤ c ∧ c ≤ 'z') ∨ ('0' ≤ c ∧ c ≤ '9')

def asciiUpper (c : Char) : Char :=
  if 'a' ≤ c ∧ c ≤ 'z' then Char.ofNat (c.toNat - 32) else c

/-- `_org_key`: strip markdown bold, strip accents, remove all
non-alphanumerics, uppercase. -/
def org_key (s : Str) : Str :=
  ((strip_accents (strip_markdown_bold s)).filter isAsciiAlnum).map asciiUpper

/-! ### Span data and ORG-block coalescing (`body_extraction.py`) -/

/-- `SpanInfo` (`body_extraction.py`). -/
structure SpanInfo where
  label : String
  text : Str
  start_char : Nat
  end_char : Nat
deriving DecidableEq, Repr

def ORG_LABELS : List String := ["ORG_WITH_STAR_LABEL", "ORG_LABEL"]

def DOC_NAME_LABEL : String := "DOC_NAME_LABEL"

/-- Characters of the gap pattern `^[\s•\-–,.;:]*$` between coalesced
ORG spans. -/
def isGapChar (c : Char) : Bool :=
  isPySpace c ∨ c = '•' ∨ c = '-' ∨ c = '–' ∨ c = ',' ∨ c = '.' ∨ c = ';' ∨ c = ':'

/-- `re.match(r"^[\s•\-–,.;:]*$", gap)` succeeds iff every character of the
gap is in the class (the `$` also matching before a final newline adds
nothing, since `\n` is itself in the class). -/
def gapMatches (g : Str) : Bool := g.all isGapChar

/-- Inner scan of the coalescing loop (`j` from `i+1` upward): thread the
running end offset, the `concatenated_raw` text and the best matching
prefix `(best_j - i, orgs[best_j].end_char)`; stop on a gap mismatch or
when the merge budget is exhausted. -/
def scanRest (docText : Str) (validKeys : List Str) :
    List SpanInfo → Nat → Nat → Str → Nat → Option (Nat × Nat) → Option (Nat × Nat)
  | _, 0, _, _, _, best => best
  | [], _ + 1, _, _, _, best => best
  | s :: ss, budget + 1, endCh, concat, j, best =>
    let gap := pySlice docText endCh s.start_char
    if gapMatches gap then
      let concat2 := concat ++ ' ' :: s.text
      let best2 := if validKeys.contains (org_key concat2) then some (j, s.end_char) else best
      scanRest docText validKeys ss budget s.end_char concat2 (j + 1) best2
    else best

/-- The full inner loop `for j in range(i, min(i + max_merge, len(orgs)))`
of `_build_org_blocks_coalesced_to_json` / `_collect_suborg_anchors_coalesced`,
returning `(best_j - i, orgs[best_j].end_char)` when some prefix of the run
matches a valid key. -/
def scanBest (docText : Str) (validKeys : List Str) (maxMerge : Nat)
    (o : SpanInfo) (rest : List SpanInfo) : Option (Nat × Nat) :=
  if maxMerge = 0 then none
  else
    let best0 := if validKeys.contains (org_key o.text) then some (0, o.end_char) else none
    scanRest docText validKeys rest (maxMerge - 1) o.end_char o.text 1 best0

/-- Fuelled outer anchor-collection loop shared by
`_build_org_blocks_coalesced_to_json` and
`_collect_suborg_anchors_coalesced`: coalesce a run into one anchor when a
prefix matches a valid key, otherwise keep the single span iff its own key
is valid.  One unit of fuel is spent per outer iteration; since every
iteration consumes at least one span, `l.length` fuel is enough. -/
def coalesceLoopF (docText : Str) (validKeys : List Str) (maxMerge : Nat) :
    Nat → List SpanInfo → List SpanInfo
  | 0, _ => []
  | _, [] => []
  | fuel + 1, o :: rest =>
    match scanBest docText validKeys maxMerge o rest with
    | some (k, bestEnd) =>
      { label := o.label, text := pySlice docText o.start_char bestEnd,
        start_char := o.start_char, end_char := bestEnd } ::
        coalesceLoopF docText validKeys maxMerge fuel ((o :: rest).drop (k + 1))
    | none =>
      (if validKeys.contains (org_key o.text) then [o] else []) ++
        coalesceLoopF docText validKeys maxMerge fuel rest

/-- The outer anchor-collection loop (see `coalesceLoopF`). -/
def coalesceLoop (docText : Str) (validKeys : List Str) (maxMerge : Nat)
    (l : List SpanInfo) : List SpanInfo :=
  coalesceLoopF docText validKeys maxMerge l.length l

/-- Build `(anchor, start, end)` tiles from an anchor list: each block runs
from its anchor's start to the next anchor's start, the last to `len`. -/
def mkTiles {α : Type} (start : α → Nat) (len : Nat) : List α → List (α × Nat × Nat)
  | [] => []
  | [a] => [(a, start a, len)]
  | a :: b :: rest => (a, start a, start b) :: mkTiles start len (b :: rest)

def spanStartLe (a b : SpanInfo) : Bool := a.start_char ≤ b.start_char

/-- `_build_org_blocks_coalesced_to_json` (`body_extraction.py`). -/
def build_org_blocks_coalesced_to_json (docText : Str) (spans : List SpanInfo)
    (validOrgKeys : List Str) (maxMerge : Nat := 3) : List (SpanInfo × Nat × Nat) :=
  let orgs := stableSort spanStartLe (spans.filter (fun s => ORG_LABELS.contains s.label))
  mkTiles (·.start_char) docText.length (coalesceLoop docText validOrgKeys maxMerge orgs)

/-- The key-dedup pass of `_collect_suborg_anchors_coalesced`
("Deduplicate by key, keeping first occurrence"). -/
def dedupByKey : List SpanInfo → List Str → List SpanInfo
  | [], _ => []
  | a :: rest, seen =>
    let k := org_key a.text
    if seen.contains k then dedupByKey rest seen
    else a :: dedupByKey rest (k :: seen)

/-- The ORG spans of `[bstart, bend)` considered by
`_collect_suborg_anchors_coalesced`, sorted by start offset. -/
def suborg_block_orgs (spans : List SpanInfo) (bstart bend : Nat) : List SpanInfo :=
  stableSort spanStartLe
    (spans.filter (fun s =>
      ORG_LABELS.contains s.label && (bstart ≤ s.start_char && s.start_char < bend)))

/-- The coalesced anchor list of `_collect_suborg_anchors_coalesced` before
its dedup pass. -/
def suborg_anchors_prededup (docText : Str) (spans : List SpanInfo)
    (bstart bend : Nat) (validSuborgKeys : List Str) (maxMerge : Nat) : List SpanInfo :=
  coalesceLoop docText validSuborgKeys maxMerge (suborg_block_orgs spans bstart bend)

/-- `_collect_suborg_anchors_coalesced` (`body_extraction.py`). -/
def collect_suborg_anchors_coalesced (docText : Str) (spans : List SpanInfo)
    (bstart bend : Nat) (validSuborgKeys : List Str) (maxMerge : Nat := 3) :
    List SpanInfo :=
  stableSort spanStartLe
    (dedupByKey (suborg_anchors_prededup docText spans bstart bend validSuborgKeys maxMerge) [])

/-! ### Org windows (`serie3_splitter/windows.py`) -/

/-- A spaCy entity span as consumed by the splitter (`label_`, `text`,
`start_char`, `end_char`). -/
structure EntSpan where
  label : String
  text : Str
  start_char : Nat
  end_char : Nat
deriving DecidableEq, Repr

/-- A parsed buffer: the raw text and its classified entity spans. -/
structure DocBody where
  text : Str
  ents : List EntSpan
deriving Repr

/-- Modelled from the spec: `serie3_splitter/config.py` is not in the
repository snapshot; `ORG_HEADER_LABELS` is the set of organization-header
labels produced by the line classifier (§4.2, §4.5 step 1).  The gap bound
`MERGE_MAX_GAP` from the same module is treated as a parameter, since the
spec calls the exact value a tunable constant. -/
def ORG_HEADER_LABELS : List String := ["ORG_LABEL", "ORG_WITH_STAR_LABEL"]

/-- The local `norm` of `collect_org_windows_from_ents`: strip, collapse
whitespace, and remove one layer of surrounding `**`. -/
def wnorm (s : Str) : Str :=
  let s1 := collapseWS (pyStrip s)
  if "**".toList.isPrefixOf s1 ∧ "**".toList.isSuffixOf s1 ∧ 4 ≤ s1.length then
    pyStrip ((s1.drop 2).take (s1.length - 4))
  else s1

/-- The local `tight`: `norm(s).replace(" ", "").lower()`. -/
def wtight (s : Str) : Str := lowerStr ((wnorm s).filter (fun c => c ≠ ' '))

/-- The local `toks`: the set of lowercased whitespace tokens of `norm(s)`. -/
def wtoks (s : Str) : Finset Str :=
  ((pyWords (lowerStr (wnorm s))).filter (fun w => w ≠ [])).toFinset

/-- The merging loop of `collect_org_windows_from_ents`: coalesce runs of
adjacent org-header spans whose inter-span gap is at most `mergeMaxGap`,
flushing the current run on a non-org span and at end of input.  The state
is the current run `(cur_start, cur_end)`. -/
def mergeOrgRuns (docText : Str) (mergeMaxGap : Int) :
    List EntSpan → Option (Nat × Nat) → List (Nat × Nat × Str)
  | [], none => []
  | [], some (cs, ce) => [(cs, ce, pySlice docText cs ce)]
  | e :: rest, cur =>
    if ORG_HEADER_LABELS.contains e.label then
      match cur with
      | none => mergeOrgRuns docText mergeMaxGap rest (some (e.start_char, e.end_char))
      | some (cs, ce) =>
        if (e.start_char : Int) - (ce : Int) ≤ mergeMaxGap then
          mergeOrgRuns docText mergeMaxGap rest (some (cs, max ce e.end_char))
        else
          (cs, ce, pySlice docText cs ce) ::
            mergeOrgRuns docText mergeMaxGap rest (some (e.start_char, e.end_char))
    else
      match cur with
      | none => mergeOrgRuns docText mergeMaxGap rest none
      | some (cs, ce) =>
        (cs, ce, pySlice docText cs ce) :: mergeOrgRuns docText mergeMaxGap rest none

def entStartLe (a b : EntSpan) : Bool := a.start_char ≤ b.start_char

def candStartLe (a b : Nat × Nat × Str) : Bool := a.1 ≤ b.1

/-- The candidate-filtering part of `collect_org_windows_from_ents`:
merged spans kept iff their tight key is contained in (or contains) an
allowed tight key, or their token set overlaps an allowed token set in at
least two tokens. -/
def keptCandidates (doc : DocBody) (allowedOrgs : List Str) (mergeMaxGap : Int) :
    List (Nat × Nat × Str) :=
  let allowed1 := (allowedOrgs.map wnorm).filter (fun o => o ≠ [])
  let allowed_tight := allowed1.map wtight
  let allowed_toksets := allowed1.map wtoks
  let ents_sorted := stableSort entStartLe doc.ents
  let merged := mergeOrgRuns doc.text mergeMaxGap ents_sorted none
  merged.filter (fun t =>
    let cand_tight := wtight t.2.2
    let cand_tokset := wtoks t.2.2
    allowed_tight.any (fun a => strContains cand_tight a || strContains a cand_tight) ||
    allowed_toksets.any (fun a => 2 ≤ (cand_tokset ∩ a).card))

/-- `OrgWindow` (`{"name": …, "start": …, "end": …}`); `end_` stands for the
Python key `end`, a reserved word in Lean. -/
structure OrgWindow where
  name : Str
  start : Nat
  end_ : Nat
deriving DecidableEq, Repr

/-- `collect_org_windows_from_ents` (`serie3_splitter/windows.py`). -/
def collect_org_windows_from_ents (doc : DocBody) (allowedOrgs : List Str)
    (mergeMaxGap : Int) : List OrgWindow :=
  let kept := keptCandidates doc allowedOrgs mergeMaxGap
  if kept ≠ [] then
    let kept_sorted := stableSort candStartLe kept
    (mkTiles (fun t => t.1) doc.text.length kept_sorted).map
      (fun x => { name := x.1.2.2, start := x.2.1, end_ := x.2.2 })
  else
    [{ name := "(global)".toList, start := 0, end_ := doc.text.length }]

/-! ### Tiling infrastructure -/

/-- `TilesTo len ws`: consecutive intervals chain (`end = next start`) and
the final interval ends at `len`. -/
def TilesTo (len : Nat) : List (Nat × Nat) → Prop
  | [] => True
  | [(_, e)] => e = len
  | (_, e1) :: (s2, e2) :: rest => e1 = s2 ∧ TilesTo len ((s2, e2) :: rest)

theorem mkTiles_tilesTo {α : Type} (start : α → Nat) (len : Nat) :
    ∀ l : List α, TilesTo len ((mkTiles start len l).map (fun x => (x.2.1, x.2.2)))
  | [] => trivial
  | [a] => by simp [mkTiles, TilesTo]
  | a :: b :: rest => by
    have ih := mkTiles_tilesTo start len (b :: rest)
    cases rest with
    | nil => simp [mkTiles, TilesTo]
    | cons c r =>
      simp only [mkTiles, List.map_cons] at ih ⊢
      exact ⟨rfl, ih⟩

theorem mkTiles_starts {α : Type} (start : α → Nat) (len : Nat) :
    ∀ l : List α, (mkTiles start len l).map (fun x => x.2.1) = l.map start
  | [] => rfl
  | [a] => rfl
  | a :: b :: rest => by
    simp only [mkTiles, List.map_cons, List.cons.injEq, true_and]
    have ih := mkTiles_starts start len (b :: rest)
    simpa using ih

theorem mkTiles_getLastD {α : Type} (start : α → Nat) (len : Nat) :
    ∀ (a : α) (l : List α) (d : α × Nat × Nat),
      ((mkTiles start len (a :: l)).getLastD d).2.2 = len := by
  intro a l
  induction l generalizing a with
  | nil => intro d; simp [mkTiles]
  | cons b r ih =>
    intro d
    have : mkTiles start len (a :: b :: r) =
        (a, start a, start b) :: mkTiles start len (b :: r) := rfl
    rw [this]
    rw [List.getLastD_cons]
    exact ih b _

theorem getLastD_map {α β : Type} (f : α → β) :
    ∀ (l : List α) (d : α), (l.map f).getLastD (f d) = f (l.getLastD d)
  | [], _ => rfl
  | a :: l, d => by
    simp only [List.map_cons, List.getLastD_cons]
    exact getLastD_map f l a

/-! ### Order and membership facts about the coalescing loop -/

theorem coalesceLoopF_start_mem (docText : Str) (validKeys : List Str) (maxMerge : Nat) :
    ∀ (fuel : Nat) (l : List SpanInfo),
      ∀ a ∈ coalesceLoopF docText validKeys maxMerge fuel l,
        ∃ s ∈ l, a.start_char = s.start_char := by
  intro fuel
  induction fuel with
  | zero => intro l a ha; simp [coalesceLoopF] at ha
  | succ fuel ih =>
    intro l a ha
    cases l with
    | nil => simp [coalesceLoopF] at ha
    | cons o rest =>
      rw [coalesceLoopF] at ha
      rcases hscan : scanBest docText validKeys maxMerge o rest with _ | ⟨k, bestEnd⟩
      · rw [hscan] at ha
        rcases List.mem_append.mp ha with ha' | ha'
        · by_cases hk : validKeys.contains (org_key o.text) = true
          · rw [if_pos hk] at ha'
            have ha2 : a = o := by simpa using ha'
            exact ⟨o, List.mem_cons_self o rest, by rw [ha2]⟩
          · rw [if_neg hk] at ha'
            simp at ha'
        · rcases ih rest a ha' with ⟨s, hs, heq⟩
          exact ⟨s, List.mem_cons_of_mem o hs, heq⟩
      · rw [hscan] at ha
        rcases List.mem_cons.mp ha with rfl | ha'
        · exact ⟨o, List.mem_cons_self o rest, rfl⟩
        · rcases ih _ a ha' with ⟨s, hs, heq⟩
          exact ⟨s, List.drop_subset _ _ hs, heq⟩

theorem coalesceLoop_start_mem (docText : Str) (validKeys : List Str) (maxMerge : Nat) :
    ∀ l : List SpanInfo, ∀ a ∈ coalesceLoop docText validKeys maxMerge l,
      ∃ s ∈ l, a.start_char = s.start_char :=
  fun l => coalesceLoopF_start_mem docText validKeys maxMerge l.length l

theorem coalesceLoopF_sorted (docText : Str) (validKeys : List Str) (maxMerge : Nat) :
    ∀ (fuel : Nat) (l : List SpanInfo),
      l.Pairwise (fun a b => a.start_char ≤ b.start_char) →
      (coalesceLoopF docText validKeys maxMerge fuel l).Pairwise
        (fun a b => a.start_char ≤ b.start_char) := by
  intro fuel
  induction fuel with
  | zero => intro l _; simp [coalesceLoopF]
  | succ fuel ih =>
    intro l hp
    cases l with
    | nil => simp [coalesceLoopF]
    | cons o rest =>
      rw [coalesceLoopF]
      rcases List.pairwise_cons.mp hp with ⟨ho, hrest⟩
      rcases hscan : scanBest docText validKeys maxMerge o rest with _ | ⟨k, bestEnd⟩
      · by_cases hk : validKeys.contains (org_key o.text) = true
        · rw [if_pos hk]
          simp only [List.singleton_append]
          refine List.pairwise_cons.mpr ⟨?_, ih rest hrest⟩
          intro b hb
          rcases coalesceLoopF_start_mem docText validKeys maxMerge _ _ b hb with ⟨s, hs, heq⟩
          simp only [heq]
          exact ho s hs
        · rw [if_neg hk]
          simp only [List.nil_append]
          exact ih rest hrest
      · have hdrop : ((o :: rest).drop (k + 1)).Pairwise
            (fun a b => a.start_char ≤ b.start_char) :=
          hp.sublist (List.drop_sublist _ _)
        refine List.pairwise_cons.mpr ⟨?_, ih _ hdrop⟩
        intro b hb
        rcases coalesceLoopF_start_mem docText validKeys maxMerge _ _ b hb with ⟨s, hs, heq⟩
        have hs' : s ∈ rest := by
          have hrw : (o :: rest).drop (k + 1) = rest.drop k := rfl
          rw [hrw] at hs
          exact List.drop_subset _ _ hs
        simp only [heq]
        exact ho s hs'

theorem coalesceLoop_sorted (docText : Str) (validKeys : List Str) (maxMerge : Nat) :
    ∀ l : List SpanInfo,
      l.Pairwise (fun a b => a.start_char ≤ b.start_char) →
      (coalesceLoop docText validKeys maxMerge l).Pairwise
        (fun a b => a.start_char ≤ b.start_char) :=
  fun l => coalesceLoopF_sorted docText validKeys maxMerge l.length l

theorem spanStartLe_total : ∀ a b : SpanInfo, spanStartLe a b ∨ spanStartLe b a := by
  intro a b
  unfold spanStartLe
  rcases Nat.le_total a.start_char b.start_char with h | h
  · left; simpa using h
  · right; simpa using h

theorem spanStartLe_trans : ∀ a b c : SpanInfo,
    spanStartLe a b → spanStartLe b c → spanStartLe a c := by
  intro a b c h1 h2
  unfold spanStartLe at *
  simp only [decide_eq_true_eq] at *
  omega

theorem candStartLe_total : ∀ a b : Nat × Nat × Str, candStartLe a b ∨ candStartLe b a := by
  intro a b
  unfold candStartLe
  rcases Nat.le_total a.1 b.1 with h | h
  · left; simpa using h
  · right; simpa using h

theorem candStartLe_trans : ∀ a b c : Nat × Nat × Str,
    candStartLe a b → candStartLe b c → candStartLe a c := by
  intro a b c h1 h2
  unfold candStartLe at *
  simp only [decide_eq_true_eq] at *
  omega

/-- **C1.** For every body buffer and payload, the org windows produced by
the window-building step — `_build_org_blocks_coalesced_to_json` in
`body_extraction.py` and `collect_org_windows_from_ents` in
`serie3_splitter/windows.py` — are sorted by start offset and tile the
body: each window's end offset equals the next window's start offset and
the last window's end offset equals the length of the body text, leaving
neither gap nor overlap between consecutive windows. -/
theorem org_windows_tiling (docText : Str) (spans : List SpanInfo)
    (validOrgKeys : List Str) (maxMerge : Nat)
    (doc : DocBody) (allowedOrgs : List Str) (mergeMaxGap : Int) :
    TilesTo docText.length
      ((build_org_blocks_coalesced_to_json docText spans validOrgKeys maxMerge).map
        (fun b => (b.2.1, b.2.2))) ∧
    ((build_org_blocks_coalesced_to_json docText spans validOrgKeys maxMerge).map
        (fun b => b.2.1)).Pairwise (· ≤ ·) ∧
    TilesTo doc.text.length
      ((collect_org_windows_from_ents doc allowedOrgs mergeMaxGap).map
        (fun w => (w.start, w.end_))) ∧
    ((collect_org_windows_from_ents doc allowedOrgs mergeMaxGap).map
        (fun w => w.start)).Pairwise (· ≤ ·) := by
  refine ⟨?_, ?_, ?_, ?_⟩
  · exact mkTiles_tilesTo _ _ _
  · unfold build_org_blocks_coalesced_to_json
    rw [mkTiles_starts]
    rw [List.pairwise_map]
    exact coalesceLoop_sorted _ _ _ _
      (by
        have hs := stableSort_sorted spanStartLe spanStartLe_total spanStartLe_trans
          (spans.filter (fun s => ORG_LABELS.contains s.label))
        refine hs.imp ?_
        intro a b hab
        unfold spanStartLe at hab
        simpa using hab)
  · unfold collect_org_windows_from_ents
    by_cases hk : keptCandidates doc allowedOrgs mergeMaxGap ≠ []
    · rw [if_pos hk]
      rw [List.map_map]
      have : ((fun w : OrgWindow => (w.start, w.end_)) ∘
          (fun x : (Nat × Nat × Str) × Nat × Nat =>
            ({ name := x.1.2.2, start := x.2.1, end_ := x.2.2 } : OrgWindow))) =
          (fun x : (Nat × Nat × Str) × Nat × Nat => (x.2.1, x.2.2)) := rfl
      rw [this]
      exact mkTiles_tilesTo _ _ _
    · rw [if_neg hk]
      simp [TilesTo]
  · unfold collect_org_windows_from_ents
    by_cases hk : keptCandidates doc allowedOrgs mergeMaxGap ≠ []
    · rw [if_pos hk]
      rw [List.map_map]
      have : ((fun w : OrgWindow => w.start) ∘
          (fun x : (Nat × Nat × Str) × Nat × Nat =>
            ({ name := x.1.2.2, start := x.2.1, end_ := x.2.2 } : OrgWindow))) =
          (fun x : (Nat × Nat × Str) × Nat × Nat => x.2.1) := rfl
      rw [this]
      rw [mkTiles_starts]
      rw [List.pairwise_map]
      have hs := stableSort_sorted candStartLe candStartLe_total candStartLe_trans
        (keptCandidates doc allowedOrgs mergeMaxGap)
      refine hs.imp ?_
      intro a b hab
      unfold candStartLe at hab
      simpa using hab
    · rw [if_neg hk]
      simp

/-- **C10.** `collect_org_windows_from_ents` always returns a non-empty
window list; when no merged candidate survives the allowed-organization
filter it returns exactly the synthetic `"(global)"` window spanning
`[0, len(body))`; and in every case the last window ends at the body
length. -/
theorem collect_org_windows_nonempty_global (doc : DocBody) (allowedOrgs : List Str)
    (mergeMaxGap : Int) :
    collect_org_windows_from_ents doc allowedOrgs mergeMaxGap ≠ [] ∧
    (keptCandidates doc allowedOrgs mergeMaxGap = [] →
      collect_org_windows_from_ents doc allowedOrgs mergeMaxGap =
        [{ name := "(global)".toList, start := 0, end_ := doc.text.length }]) ∧
    ((collect_org_windows_from_ents doc allowedOrgs mergeMaxGap).getLastD
        { name := [], start := 0, end_ := 0 }).end_ = doc.text.length := by
  unfold collect_org_windows_from_ents
  by_cases hk : keptCandidates doc allowedOrgs mergeMaxGap ≠ []
  · rw [if_pos hk]
    have hperm := stableSort_perm candStartLe (keptCandidates doc allowedOrgs mergeMaxGap)
    have hne : stableSort candStartLe (keptCandidates doc allowedOrgs mergeMaxGap) ≠ [] := by
      intro hcontra
      rw [hcontra] at hperm
      exact hk hperm.symm.eq_nil
    obtain ⟨a, l, hal⟩ := List.exists_cons_of_ne_nil hne
    rw [hal]
    refine ⟨by cases l <;> simp [mkTiles], fun hcontra => absurd hcontra hk, ?_⟩
    have hd : ({ name := [], start := 0, end_ := 0 } : OrgWindow) =
        (fun x : (Nat × Nat × Str) × Nat × Nat =>
          ({ name := x.1.2.2, start := x.2.1, end_ := x.2.2 } : OrgWindow)) ((0, 0, []), 0, 0) := rfl
    rw [hd, getLastD_map]
    rw [mkTiles_getLastD]
  · rw [if_neg hk]
    push_neg at hk
    exact ⟨by simp, fun _ => rfl, rfl⟩

/-! ### Dedup facts (`_collect_suborg_anchors_coalesced`) -/

theorem dedupByKey_subset : ∀ (l : List SpanInfo) (seen : List Str),
    ∀ a ∈ dedupByKey l seen, a ∈ l := by
  intro l
  induction l with
  | nil => intro seen a ha; simp [dedupByKey] at ha
  | cons c rest ih =>
    intro seen a ha
    rw [dedupByKey] at ha
    by_cases hk : seen.contains (org_key c.text) = true
    · rw [if_pos hk] at ha
      exact List.mem_cons_of_mem c (ih seen a ha)
    · rw [if_neg hk] at ha
      rcases List.mem_cons.mp ha with rfl | ha'
      · exact List.mem_cons_self a rest
      · exact List.mem_cons_of_mem c (ih _ a ha')

theorem dedupByKey_distinct : ∀ (l : List SpanInfo) (seen : List Str),
    (dedupByKey l seen).Pairwise (fun a b => org_key a.text ≠ org_key b.text) ∧
    (∀ a ∈ dedupByKey l seen, ¬ org_key a.text ∈ seen) := by
  intro l
  induction l with
  | nil => intro seen; constructor <;> simp [dedupByKey]
  | cons c rest ih =>
    intro seen
    rw [dedupByKey]
    by_cases hk : seen.contains (org_key c.text) = true
    · rw [if_pos hk]
      exact ih seen
    · rw [if_neg hk]
      obtain ⟨ihp, ihs⟩ := ih (org_key c.text :: seen)
      constructor
      · refine List.pairwise_cons.mpr ⟨?_, ihp⟩
        intro b hb
        have := ihs b hb
        intro heq
        exact this (by rw [← heq]; exact List.mem_cons_self _ _)
      · intro a ha
        rcases List.mem_cons.mp ha with rfl | ha'
        · intro hmem
          exact hk (List.elem_iff.mpr hmem)
        · intro hmem
          exact ihs a ha' (List.mem_cons_of_mem _ hmem)

theorem dedupByKey_covers : ∀ (l : List SpanInfo) (seen : List Str),
    ∀ a ∈ l, ¬ org_key a.text ∈ seen →
      ∃ b ∈ dedupByKey l seen, org_key b.text = org_key a.text := by
  intro l
  induction l with
  | nil => intro seen a ha; simp at ha
  | cons c rest ih =>
    intro seen a ha hseen
    rw [dedupByKey]
    by_cases hk : seen.contains (org_key c.text) = true
    · rw [if_pos hk]
      rcases List.mem_cons.mp ha with rfl | ha'
      · exact absurd (List.elem_iff.mp hk) hseen
      · exact ih seen a ha' hseen
    · rw [if_neg hk]
      rcases List.mem_cons.mp ha with rfl | ha'
      · exact ⟨a, List.mem_cons_self _ _, rfl⟩
      · by_cases heq : org_key a.text = org_key c.text
        · exact ⟨c, List.mem_cons_self _ _, heq.symm⟩
        · have hnotin : ¬ org_key a.text ∈ (org_key c.text :: seen) := by
            intro hmem
            rcases List.mem_cons.mp hmem with h | h
            · exact heq h
            · exact hseen h
          rcases ih _ a ha' hnotin with ⟨b, hb, hbeq⟩
          exact ⟨b, List.mem_cons_of_mem _ hb, hbeq⟩

/-- **C4 counterexample.** A window containing two occurrences of the same
declared sub-organization (aggressive key `SUBA`): the coalescing pass
produces two anchors, but `_collect_suborg_anchors_coalesced` returns only
the first occurrence — the second is dropped by the dedup pass, so the
claim "every occurrence is kept, no deduplication" fails on this input. -/
theorem suborg_anchor_dedup_counterexample :
    (suborg_anchors_prededup "SUB A x SUB A".toList
        [⟨"ORG_LABEL", "SUB A".toList, 0, 5⟩, ⟨"ORG_LABEL", "SUB A".toList, 8, 13⟩]
        0 13 ["SUBA".toList] 3).length = 2 ∧
    collect_suborg_anchors_coalesced "SUB A x SUB A".toList
        [⟨"ORG_LABEL", "SUB A".toList, 0, 5⟩, ⟨"ORG_LABEL", "SUB A".toList, 8, 13⟩]
        0 13 ["SUBA".toList] 3 =
      [⟨"ORG_LABEL", "SUB A".toList, 0, 5⟩] := by
  constructor <;> rfl

/-- **C4 amended.** In hierarchical mode, the sub-organization anchors
collected inside a top-organization's window are deduplicated by aggressive
org key, keeping the first occurrence of each key: the returned anchors
have pairwise-distinct keys, each returned anchor is one of the coalesced
anchors, and every coalesced anchor's key is still represented, so a
recurring sub-organization yields exactly one anchor rather than several. -/
theorem suborg_anchor_dedup_spec (docText : Str) (spans : List SpanInfo)
    (bstart bend : Nat) (validSuborgKeys : List Str) (maxMerge : Nat) :
    (collect_suborg_anchors_coalesced docText spans bstart bend validSuborgKeys
        maxMerge).Pairwise (fun a b => org_key a.text ≠ org_key b.text) ∧
    (∀ a ∈ collect_suborg_anchors_coalesced docText spans bstart bend validSuborgKeys
        maxMerge,
      a ∈ suborg_anchors_prededup docText spans bstart bend validSuborgKeys maxMerge) ∧
    (∀ a ∈ suborg_anchors_prededup docText spans bstart bend validSuborgKeys maxMerge,
      ∃ b ∈ collect_suborg_anchors_coalesced docText spans bstart bend validSuborgKeys
        maxMerge, org_key b.text = org_key a.text) := by
  unfold collect_suborg_anchors_coalesced
  set anchors := suborg_anchors_prededup docText spans bstart bend validSuborgKeys maxMerge
  have hperm := stableSort_perm spanStartLe (dedupByKey anchors [])
  refine ⟨?_, ?_, ?_⟩
  · have hsym : ∀ {x y : SpanInfo},
        org_key x.text ≠ org_key y.text → org_key y.text ≠ org_key x.text :=
      fun h heq => h heq.symm
    exact (hperm.pairwise_iff hsym).mpr (dedupByKey_distinct anchors []).1
  · intro a ha
    exact dedupByKey_subset anchors [] a (hperm.mem_iff.mp ha)
  · intro a ha
    rcases dedupByKey_covers anchors [] a ha (by simp) with ⟨b, hb, hbeq⟩
    exact ⟨b, hperm.mem_iff.mpr hb, hbeq⟩

/-- Closed instance of the C4 amended theorem at the counterexample input:
the single kept anchor has the key of both coalesced occurrences. -/
theorem suborg_anchor_dedup_spec_witness :
    ∃ b ∈ collect_suborg_anchors_coalesced "SUB A x SUB A".toList
        [⟨"ORG_LABEL", "SUB A".toList, 0, 5⟩, ⟨"ORG_LABEL", "SUB A".toList, 8, 13⟩]
        0 13 ["SUBA".toList] 3,
      org_key b.text =
        org_key (⟨"ORG_LABEL", "SUB A".toList, 8, 13⟩ : SpanInfo).text :=
  (suborg_anchor_dedup_spec "SUB A x SUB A".toList
      [⟨"ORG_LABEL", "SUB A".toList, 0, 5⟩, ⟨"ORG_LABEL", "SUB A".toList, 8, 13⟩]
      0 13 ["SUBA".toList] 3).2.2
    ⟨"ORG_LABEL", "SUB A".toList, 8, 13⟩ (by decide)

/-- Closed instance of the C10 theorem: a body with no entities has no kept
candidate, so the single `(global)` window is returned. -/
theorem collect_org_windows_nonempty_global_witness :
    keptCandidates ⟨"abc".toList, []⟩ [] 3 = [] ∧
    collect_org_windows_from_ents ⟨"abc".toList, []⟩ [] 3 =
      [{ name := "(global)".toList, start := 0, end_ := 3 }] :=
  ⟨rfl, (collect_org_windows_nonempty_global ⟨"abc".toList, []⟩ [] 3).2.1 rfl⟩

/-! ### Document slicing within an ORG block (`body_extraction.py`) -/

/-- A document title entry of the flat payload (`{"text": …}`). -/
structure JsonDoc where
  text : Str
deriving DecidableEq, Repr

/-- A flat payload item: `{"org": {"text": …}, "docs": [...]}`. -/
structure FlatItem where
  org : Str
  docs : List JsonDoc
deriving DecidableEq, Repr

/-- `DocSlice` of `body_extraction.py`. -/
structure BDocSlice where
  doc_name : Str
  text : Str
deriving DecidableEq, Repr

/-- `OrgBlockResult` of `body_extraction.py`. -/
structure OrgBlockResult where
  org : Str
  org_block_text : Str
  docs : List BDocSlice
  status : String
deriving DecidableEq, Repr

/-- `_spans_within`: spans whose start offset lies in `[start, stop)`,
optionally restricted to a label set. -/
def spans_within (spans : List SpanInfo) (start stop : Nat)
    (labels : Option (List String)) : List SpanInfo :=
  spans.filter (fun s =>
    start ≤ s.start_char && s.start_char < stop &&
    (match labels with
     | none => true
     | some ls => ls.contains s.label))

/-- `_slice_end` inside `_slice_docs_in_block`: the start of the first
DOC_NAME span after `start_char`, or the block end. -/
def slice_end (docname_spans_sorted : List SpanInfo) (bend : Nat)
    (start_char : Nat) : Nat :=
  match docname_spans_sorted.find? (fun s => start_char < s.start_char) with
  | some s => s.start_char
  | none => bend

/-- First index `≥ i` of a DOC_NAME span whose normalized text equals the
expected title (the advancing-cursor `while` loop). -/
def findIdxFrom (docnames : List SpanInfo) (i : Nat) (jnorm : Str) : Option Nat :=
  match (docnames.drop i).findIdx? (fun s => normalize_text s.text = jnorm) with
  | some j => some (i + j)
  | none => none

/-- The sequential name-matching loop of `_slice_docs_in_block`: walk the
expected docs in order, advancing a cursor over the block's DOC_NAME spans;
a matched header opens a slice to the next header (or block end); an
expected doc whose title is never reached goes to the unmatched list (the
cursor then sits at the end, so every later doc is unmatched too). -/
def seqMatchDocs (docText : Str) (docnames : List SpanInfo) (bend : Nat) :
    List JsonDoc → Nat → List BDocSlice × List Str
  | [], _ => ([], [])
  | jd :: jds, i =>
    match findIdxFrom docnames i (normalize_text jd.text) with
    | some idx =>
      let head := docnames.getD idx ⟨"", [], 0, 0⟩
      let start := head.start_char
      let e := slice_end docnames bend start
      let rec_result := seqMatchDocs docText docnames bend jds (idx + 1)
      (⟨pyStrip (strip_markdown_bold jd.text), pySlice docText start e⟩ :: rec_result.1,
        rec_result.2)
    | none =>
      let rec_result := seqMatchDocs docText docnames bend jds docnames.length
      (rec_result.1, jd.text :: rec_result.2)

/-- Zero-header fallback (b) of `_slice_docs_in_block`: split the block at
repeated occurrences of the block's own ORG header, mapping segments to
expected docs in order; with no repeats, salvage the whole block as the
first expected doc (status `partial`). -/
def sliceFallbackB (docText : Str) (spans : List SpanInfo) (bstart bend : Nat)
    (json_docs : List JsonDoc) (org_label_text_raw : Str) :
    List BDocSlice × List Str × String × Nat :=
  let self_key := org_key org_label_text_raw
  let repeat_spans := stableSort spanStartLe
    ((spans_within spans bstart bend (some ORG_LABELS)).filter
      (fun s => org_key s.text = self_key))
  let internal_starts :=
    (repeat_spans.filter (fun s => bstart < s.start_char)).map (fun s => s.start_char)
  if internal_starts ≠ [] then
    let starts := bstart :: internal_starts
    let ends := starts.tail ++ [bend]
    let num_segments := starts.length
    let matched_count := min num_segments json_docs.length
    let matched_slices := (List.range matched_count).map (fun idx =>
      (⟨pyStrip (strip_markdown_bold ((json_docs.getD idx ⟨[]⟩).text)),
        pySlice docText (starts.getD idx 0) (ends.getD idx 0)⟩ : BDocSlice))
    let unmatched := (json_docs.drop matched_count).map (fun d => d.text)
    let status :=
      if matched_count = json_docs.length ∧ json_docs.length = num_segments
      then "ok" else "partial"
    (matched_slices, unmatched, status, matched_count)
  else
    ([⟨pyStrip (strip_markdown_bold (json_docs.headD ⟨[]⟩).text),
        pySlice docText bstart bend⟩],
      (json_docs.drop 1).map (fun d => d.text), "partial", 1)

/-- Status assignment of the normal (header-matching) path of
`_slice_docs_in_block`. -/
def normalPathStatus (ms : List BDocSlice) (us : List Str)
    (json_docs : List JsonDoc) : String :=
  if json_docs.length = 0 then "ok"
  else if ms ≠ [] ∧ us ≠ [] then "partial"
  else if ms = [] ∧ json_docs ≠ [] then "doc_missing"
  else "ok"

/-- `_slice_docs_in_block` (`body_extraction.py`): sequential matching with
the two zero-header fallbacks. -/
def slice_docs_in_block (docText : Str) (spans : List SpanInfo)
    (bstart bend : Nat) (json_docs : List JsonDoc) (org_label_text_raw : Str) :
    List BDocSlice × List Str × String × Nat :=
  let docname_spans_sorted :=
    stableSort spanStartLe (spans_within spans bstart bend (some [DOC_NAME_LABEL]))
  if docname_spans_sorted = [] ∧ json_docs.length = 1 then
    ([⟨pyStrip (strip_markdown_bold (json_docs.headD ⟨[]⟩).text),
        pySlice docText bstart bend⟩], [], "ok", 1)
  else if docname_spans_sorted = [] ∧ 1 < json_docs.length then
    sliceFallbackB docText spans bstart bend json_docs org_label_text_raw
  else
    let ms_us := seqMatchDocs docText docname_spans_sorted bend json_docs 0
    (ms_us.1, ms_us.2, normalPathStatus ms_us.1 ms_us.2 json_docs, ms_us.1.length)

/-- `_collect_spans`: drop JUNK spans and sort by start offset. -/
def IGNORE_LABELS : List String := ["JUNK_LABEL"]

def collect_spans (ents : List SpanInfo) : List SpanInfo :=
  stableSort spanStartLe (ents.filter (fun e => ¬ IGNORE_LABELS.contains e.label))

/-- The summary counters of `divide_body_by_org_and_docs`. -/
structure FlatSummary where
  orgs_total : Nat
  org_ok : Nat
  org_partial : Nat
  org_doc_missing : Nat
  org_missing : Nat
  docs_expected : Nat
  docs_matched : Nat
deriving DecidableEq, Repr

/-- One flat-mode item of `divide_body_by_org_and_docs`: look the item's
org key up among the coalesced body blocks (first block wins, as for the
`setdefault` lookup); slice the block when found, else emit an
`org_missing` result with no slices.  Returns the result together with the
item's `matched_count` contribution. -/
def flatItemResult (docText : Str) (spans : List SpanInfo)
    (org_blocks : List (SpanInfo × Nat × Nat)) (it : FlatItem) :
    OrgBlockResult × Nat :=
  match org_blocks.find? (fun b => org_key b.1.text = org_key it.org) with
  | some (_, bstart, bend) =>
    let sliced := slice_docs_in_block docText spans bstart bend it.docs it.org
    ({ org := pyStrip (strip_markdown_bold it.org),
       org_block_text := pySlice docText bstart bend,
       docs := sliced.1,
       status := sliced.2.2.1 }, sliced.2.2.2)
  | none =>
    ({ org := pyStrip (strip_markdown_bold it.org),
       org_block_text := [],
       docs := [],
       status := "org_missing" }, 0)

/-- Flat mode of `divide_body_by_org_and_docs` (`body_extraction.py`):
ORG blocks from JSON-listed orgs only, then per-item document slicing;
summary counters aggregated over the items (file writing omitted). -/
def divide_body_flat (docText : Str) (ents : List SpanInfo) (items : List FlatItem) :
    List OrgBlockResult × FlatSummary :=
  let spans := collect_spans ents
  let json_org_keys := items.map (fun it => org_key it.org)
  let org_blocks := build_org_blocks_coalesced_to_json docText spans json_org_keys 3
  let pairs := items.map (flatItemResult docText spans org_blocks)
  let results := pairs.map (·.1)
  (results,
   { orgs_total := items.length,
     org_ok := (results.filter (fun r => r.status = "ok")).length,
     org_partial := (results.filter (fun r => r.status = "partial")).length,
     org_doc_missing := (results.filter (fun r => r.status = "doc_missing")).length,
     org_missing := (results.filter (fun r => r.status = "org_missing")).length,
     docs_expected := (items.map (fun it => it.docs.length)).sum,
     docs_matched := (pairs.map (·.2)).sum })

theorem seqMatchDocs_count (docText : Str) (docnames : List SpanInfo) (bend : Nat) :
    ∀ (jdocs : List JsonDoc) (i : Nat),
      (seqMatchDocs docText docnames bend jdocs i).1.length +
        (seqMatchDocs docText docnames bend jdocs i).2.length = jdocs.length := by
  intro jdocs
  induction jdocs with
  | nil => intro i; simp [seqMatchDocs]
  | cons jd jds ih =>
    intro i
    rw [seqMatchDocs]
    rcases h : findIdxFrom docnames i (normalize_text jd.text) with _ | idx
    · simp only [List.length_cons]
      have := ih docnames.length
      omega
    · simp only [List.length_cons]
      have := ih (idx + 1)
      omega

theorem sliceFallbackB_count (docText : Str) (spans : List SpanInfo)
    (bstart bend : Nat) (json_docs : List JsonDoc) (raw : Str)
    (hN : 1 ≤ json_docs.length) :
    (sliceFallbackB docText spans bstart bend json_docs raw).1.length +
      (sliceFallbackB docText spans bstart bend json_docs raw).2.1.length
      = json_docs.length ∧
    ((sliceFallbackB docText spans bstart bend json_docs raw).2.2.1 = "ok" →
      (sliceFallbackB docText spans bstart bend json_docs raw).2.1 = []) := by
  unfold sliceFallbackB
  by_cases hi : ((stableSort spanStartLe
      ((spans_within spans bstart bend (some ORG_LABELS)).filter
        (fun s => org_key s.text = org_key raw))).filter
        (fun s => bstart < s.start_char)).map (fun s => s.start_char) ≠ []
  · rw [if_pos hi]
    dsimp only
    constructor
    · simp only [List.length_map, List.length_range, List.length_drop]
      have := Nat.min_le_right (bstart ::
        ((stableSort spanStartLe
          ((spans_within spans bstart bend (some ORG_LABELS)).filter
            (fun s => org_key s.text = org_key raw))).filter
            (fun s => bstart < s.start_char)).map (fun s => s.start_char)).length
        json_docs.length
      omega
    · by_cases hok : min (bstart ::
          ((stableSort spanStartLe
            ((spans_within spans bstart bend (some ORG_LABELS)).filter
              (fun s => org_key s.text = org_key raw))).filter
              (fun s => bstart < s.start_char)).map (fun s => s.start_char)).length
          json_docs.length = json_docs.length ∧
          json_docs.length = (bstart ::
          ((stableSort spanStartLe
            ((spans_within spans bstart bend (some ORG_LABELS)).filter
              (fun s => org_key s.text = org_key raw))).filter
              (fun s => bstart < s.start_char)).map (fun s => s.start_char)).length
      · rw [if_pos hok]
        intro _
        rw [hok.1, List.drop_length]
        rfl
      · rw [if_neg hok]
        intro hcontra
        exact absurd hcontra (by decide)
  · rw [if_neg hi]
    dsimp only
    constructor
    · simp only [List.length_cons, List.length_nil, List.length_map, List.length_drop]
      omega
    · intro hcontra
      exact absurd hcontra (by decide)

theorem normalPathStatus_ok (ms : List BDocSlice) (us : List Str)
    (json_docs : List JsonDoc)
    (hcount : ms.length + us.length = json_docs.length)
    (hok : normalPathStatus ms us json_docs = "ok") : us = [] := by
  unfold normalPathStatus at hok
  by_cases h0 : json_docs.length = 0
  · rw [h0] at hcount
    exact List.length_eq_zero.mp (by omega)
  · rw [if_neg h0] at hok
    by_cases h1 : ms ≠ [] ∧ us ≠ []
    · rw [if_pos h1] at hok
      exact absurd hok (by decide)
    · rw [if_neg h1] at hok
      by_cases h2 : ms = [] ∧ json_docs ≠ []
      · rw [if_pos h2] at hok
        exact absurd hok (by decide)
      · by_cases hu : us = []
        · exact hu
        · exfalso
          have hm : ms = [] := by
            by_contra hm
            exact h1 ⟨hm, hu⟩
          have hj : json_docs = [] := by
            by_contra hj
            exact h2 ⟨hm, hj⟩
          exact h0 (by rw [hj]; rfl)

theorem slice_docs_in_block_count (docText : Str) (spans : List SpanInfo)
    (bstart bend : Nat) (json_docs : List JsonDoc) (raw : Str) :
    (slice_docs_in_block docText spans bstart bend json_docs raw).1.length +
      (slice_docs_in_block docText spans bstart bend json_docs raw).2.1.length
      = json_docs.length ∧
    ((slice_docs_in_block docText spans bstart bend json_docs raw).2.2.1 = "ok" →
      (slice_docs_in_block docText spans bstart bend json_docs raw).2.1 = []) := by
  unfold slice_docs_in_block
  by_cases h1 : stableSort spanStartLe
      (spans_within spans bstart bend (some [DOC_NAME_LABEL])) = [] ∧
      json_docs.length = 1
  · rw [if_pos h1]
    exact ⟨by simp [h1.2], fun _ => rfl⟩
  · rw [if_neg h1]
    by_cases h2 : stableSort spanStartLe
        (spans_within spans bstart bend (some [DOC_NAME_LABEL])) = [] ∧
        1 < json_docs.length
    · rw [if_pos h2]
      exact sliceFallbackB_count docText spans bstart bend json_docs raw
        (Nat.le_of_lt h2.2)
    · rw [if_neg h2]
      dsimp only
      have hcount := seqMatchDocs_count docText
        (stableSort spanStartLe (spans_within spans bstart bend (some [DOC_NAME_LABEL])))
        bend json_docs 0
      exact ⟨hcount, normalPathStatus_ok _ _ _ hcount⟩

/-- **C2 counterexample.** Unmatched expected documents are not emitted as
placeholder slices: with two declared documents of which only `Doc One` is
anchored, the organization's result holds a single slice with status
`partial`; and an organization absent from the body yields zero slices with
status `org_missing` — in both cases the slice count drops below the
declared document count. -/
theorem docslice_count_counterexample :
    ((divide_body_flat "ORGA **Doc One** x".toList
        [⟨"ORG_LABEL", "ORGA".toList, 0, 4⟩,
          ⟨"DOC_NAME_LABEL", "**Doc One**".toList, 5, 16⟩]
        [⟨"ORGA".toList, [⟨"**Doc One**".toList⟩, ⟨"Doc Two".toList⟩]⟩]).1.map
      (fun r => (r.status, r.docs.length))) = [("partial", 1)] ∧
    ((divide_body_flat "body text".toList []
        [⟨"AAA".toList, [⟨"DX".toList⟩]⟩]).1.map
      (fun r => (r.status, r.docs.length))) = [("org_missing", 0)] := by
  constructor <;> rfl

theorem flatItemResult_count (docText : Str) (spans : List SpanInfo)
    (org_blocks : List (SpanInfo × Nat × Nat)) (it : FlatItem) :
    (flatItemResult docText spans org_blocks it).1.docs.length ≤ it.docs.length ∧
    ((flatItemResult docText spans org_blocks it).1.status = "ok" →
      (flatItemResult docText spans org_blocks it).1.docs.length = it.docs.length) := by
  unfold flatItemResult
  rcases hfind : org_blocks.find? (fun b => org_key b.1.text = org_key it.org)
    with _ | bres
  · rw [hfind]
    dsimp only
    refine ⟨by simp, ?_⟩
    intro hcontra
    exact absurd hcontra (by decide)
  · obtain ⟨sp, bstart, bend⟩ := bres
    rw [hfind]
    dsimp only
    obtain ⟨hcount, hok⟩ := slice_docs_in_block_count docText spans
      bstart bend it.docs it.org
    constructor
    · omega
    · intro hst
      have hus := hok hst
      rw [hus] at hcount
      simp only [List.length_nil] at hcount
      omega

/-- **C2 amended.** For every organization item declared with N documents,
the flat body aligner emits one result whose slice count is the number of
matched documents: it never exceeds N, equals N exactly when the
organization status is `ok`, and can drop below N (unmatched titles are
reported in the unmatched list and in the status — `partial`,
`doc_missing`, or `org_missing` with zero slices — not as placeholder
slices). -/
theorem docslice_count_spec (docText : Str) (ents : List SpanInfo)
    (items : List FlatItem) :
    (divide_body_flat docText ents items).1.length = items.length ∧
    (∀ (k : Nat) (r : OrgBlockResult) (it : FlatItem),
      (divide_body_flat docText ents items).1[k]? = some r →
      items[k]? = some it →
      r.docs.length ≤ it.docs.length ∧
        (r.status = "ok" → r.docs.length = it.docs.length)) := by
  unfold divide_body_flat
  constructor
  · simp
  · intro k r it hr hit
    simp only [List.getElem?_map, hit, Option.map_some'] at hr
    have hr' : r = (flatItemResult docText (collect_spans ents)
        (build_org_blocks_coalesced_to_json docText (collect_spans ents)
          (items.map (fun it => org_key it.org)) 3) it).1 := by
      exact (Option.some_inj.mp hr).symm
    have hlem := flatItemResult_count docText (collect_spans ents)
      (build_org_blocks_coalesced_to_json docText (collect_spans ents)
        (items.map (fun it => org_key it.org)) 3) it
    rw [← hr'] at hlem
    exact hlem

/-- The `org_missing` result produced for an organization absent from the
body (used to instantiate the C2 amended theorem). -/
def rMissing : OrgBlockResult :=
  { org := "AAA".toList, org_block_text := [], docs := [], status := "org_missing" }

def itMissing : FlatItem := ⟨"AAA".toList, [⟨"DX".toList⟩]⟩

/-- Closed instance of the C2 amended theorem at the missing-organization
input: zero slices for one declared document, with a non-`ok` status. -/
theorem docslice_count_spec_witness :
    rMissing.docs.length ≤ itMissing.docs.length ∧
    (rMissing.status = "ok" → rMissing.docs.length = itMissing.docs.length) :=
  (docslice_count_spec "body text".toList [] [itMissing]).2 0 rMissing itMissing
    (by decide) (by decide)

/-- **C3 (code bug).** A block whose single DocNameHeader (`**Alpha**`)
matches no expected title: `_slice_docs_in_block` returns zero slices with
status `doc_missing`, although the docstring of
`divide_body_by_org_and_docs` promises the "brutal fallback: if zero name
matches but DOC_NAME_LABELs exist, slice all headers present" (spec §4.5
fallback (c), status `partial`, one slice per header named from its own
text). -/
theorem brutal_fallback_missing :
    slice_docs_in_block "**Alpha** body".toList
      [⟨"DOC_NAME_LABEL", "**Alpha**".toList, 0, 9⟩] 0 14
      [⟨"Beta".toList⟩] "ORG X".toList =
    ([], ["Beta".toList], "doc_missing", 0) := rfl

/-! ### Relation extraction (`relations_extractor.py`) -/

/-- `EntitySpan` (`sent_id` is always `None` in the extractor and is
omitted). -/
structure EntitySpan where
  text : Str
  label : String
  start : Nat
  end_ : Nat
  paragraph_id : Option Int
deriving DecidableEq, Repr

/-- `Relation` (`sent_id` omitted as above). -/
structure Relation where
  head : EntitySpan
  tail : EntitySpan
  kind : String
  paragraph_id : Option Int
  evidence_text : Str
deriving DecidableEq, Repr

/-- `RelationExtractor._pair_kind` (with `serieIII=False` semantics:
`DOC_TEXT` and `PARAGRAPH` tails both give `DOC_NAME→DOC_TEXT`). -/
def pair_kind (head_label tail_label : String) : Option String :=
  if head_label = "ORG_LABEL" ∧ tail_label = "DOC_NAME_LABEL" then some "ORG→DOC_NAME"
  else if head_label = "ORG_LABEL" ∧ tail_label = "ORG_WITH_STAR_LABEL" then some "ORG→ORG*"
  else if head_label = "ORG_WITH_STAR_LABEL" ∧ tail_label = "ORG_LABEL" then some "ORG*→ORG"
  else if head_label = "ORG_WITH_STAR_LABEL" ∧ tail_label = "DOC_NAME_LABEL" then
    some "ORG*→DOC_NAME"
  else if head_label = "DOC_NAME_LABEL" ∧ (tail_label = "DOC_TEXT" ∨ tail_label = "PARAGRAPH")
  then some "DOC_NAME→DOC_TEXT"
  else none

/-- Inner tail loop of `_extract_block` for one head: emit a relation for
every valid pair, at most one per tail label unless multi-links are
allowed (star→sub-org, or DOC_NAME tails); threads the per-head
already-linked tail-label set. -/
def extractTails (docT : Str) (pid : Option Int) (head : EntitySpan) :
    List EntitySpan → List String → List Relation × List String
  | [], already => ([], already)
  | tail :: rest, already =>
    match pair_kind head.label tail.label with
    | none => extractTails docT pid head rest already
    | some kind =>
      let allow_multi :=
        (head.label = "ORG_WITH_STAR_LABEL" ∧ tail.label = "ORG_LABEL") ∨
          tail.label = "DOC_NAME_LABEL"
      if ¬ allow_multi ∧ already.contains tail.label then
        extractTails docT pid head rest already
      else
        let r : Relation :=
          ⟨head, tail, kind, pid, pyStrip (pySlice docT head.end_ tail.start)⟩
        let already2 := if ¬ allow_multi then tail.label :: already else already
        let res := extractTails docT pid head rest already2
        (r :: res.1, res.2)

/-- Update-or-append for the `linked_tail_labels_by_head` dict keyed by
head start offsets. -/
def dictSetNat : List (Nat × List String) → Nat → List String → List (Nat × List String)
  | [], k, v => [(k, v)]
  | (k1, v1) :: rest, k, v =>
    if k1 = k then (k1, v) :: rest else (k1, v1) :: dictSetNat rest k v

/-- `_extract_block`: left-to-right scan of a block, pairing each
ORG/STAR/DOC_NAME head with every valid tail to its right, with the shared
already-linked dict (heads with equal start offsets share their set, as in
the Python `setdefault`). -/
def extractBlockAux (docT : Str) (pid : Option Int) :
    List EntitySpan → List (Nat × List String) → List Relation
  | [], _ => []
  | head :: rest, dict =>
    if head.label = "ORG_LABEL" ∨ head.label = "ORG_WITH_STAR_LABEL" ∨
        head.label = "DOC_NAME_LABEL" then
      let already := ((dict.find? (fun p => p.1 = head.start)).map (fun p => p.2)).getD []
      let res := extractTails docT pid head rest already
      res.1 ++ extractBlockAux docT pid rest (dictSetNat dict head.start res.2)
    else
      extractBlockAux docT pid rest dict

def extract_block (docT : Str) (seq : List EntitySpan) (pid : Option Int) : List Relation :=
  extractBlockAux docT pid seq []

/-- The tails of the item's direct plain `ORG→DOC_NAME` relations
(`docs_from_org` in `_extract_in_sequence`). -/
def docsFromOrg (out : List Relation) : List Str :=
  (out.filter (fun r => r.kind = "ORG→DOC_NAME")).map (fun r => r.tail.text)

/-- The pruning condition: an `ORG*→DOC_NAME` relation whose tail text is
already a direct `ORG→DOC_NAME` tail of the item. -/
def isPrunedDup (out : List Relation) (r : Relation) : Bool :=
  r.kind = "ORG*→DOC_NAME" && (docsFromOrg out).contains r.tail.text

/-- The pruning step of `_extract_in_sequence`: when the item produced at
least one `ORG*→ORG` edge, drop every `ORG*→DOC_NAME` relation whose tail
text is already a direct `ORG→DOC_NAME` tail. -/
def pruneStarDocs (out : List Relation) : List Relation :=
  if out.any (fun r => r.kind = "ORG*→ORG") then
    out.filter (fun r => ! isPrunedDup out r)
  else out

/-- Sub-blocks of a starred paragraph (`seq[1:]`): each declared sub-org
(`ORG_LABEL`) opens a block running up to the next ORG/STAR span. -/
def subBlocks : List EntitySpan → List (List EntitySpan)
  | [] => []
  | e :: rest =>
    if e.label = "ORG_LABEL" then
      (e :: rest.takeWhile (fun x =>
        ¬ (x.label = "ORG_LABEL" ∨ x.label = "ORG_WITH_STAR_LABEL"))) :: subBlocks rest
    else subBlocks rest

/-- The star-block path of `_extract_in_sequence` before pruning:
`ORG*→ORG` links from the star head to every sub-org, then the standard
pairing inside each sub-org's block. -/
def starPathRelations (docT : Str) (seq : List EntitySpan) (pid : Option Int) :
    List Relation :=
  match seq with
  | [] => []
  | star :: rest =>
    ((rest.filter (fun e => e.label = "ORG_LABEL")).map (fun e =>
      (⟨star, e, "ORG*→ORG", pid, pyStrip (pySlice docT star.end_ e.start)⟩ : Relation))) ++
    ((subBlocks rest).map (fun block => extract_block docT block pid)).flatten

/-- `_extract_in_sequence` (`relations_extractor.py`): star path when the
paragraph opens with a starred org, otherwise the standard block scan;
both ends with the `ORG*→DOC_NAME` pruning. -/
def headIsStar : List EntitySpan → Bool
  | e :: _ => e.label = "ORG_WITH_STAR_LABEL"
  | [] => false

def extract_in_sequence (docT : Str) (seq : List EntitySpan) (pid : Option Int)
    (is_star_block : Bool) : List Relation :=
  if is_star_block && headIsStar seq then
    pruneStarDocs (starPathRelations docT seq pid)
  else
    pruneStarDocs (extract_block docT seq pid)

theorem count_filter_eq {α : Type} [DecidableEq α] (p : α → Bool) (l : List α) (a : α) :
    (l.filter p).count a = if p a then l.count a else 0 := by
  induction l with
  | nil => simp
  | cons b l ih =>
    rw [List.filter_cons]
    by_cases hpb : p b
    · rw [if_pos hpb]
      by_cases hba : b = a
      · subst hba
        simp only [List.count_cons_self, ih, hpb, if_pos]
      · rw [List.count_cons_of_ne (by exact fun h => hba h.symm),
          List.count_cons_of_ne (by exact fun h => hba h.symm), ih]
    · rw [if_neg (by simpa using hpb)]
      by_cases hba : b = a
      · subst hba
        rw [ih]
        by_cases hpa : p b
        · exact absurd hpa hpb
        · rw [if_neg hpa, if_neg hpa]
      · rw [List.count_cons_of_ne (by exact fun h => hba h.symm), ih]

/-- **C8.** For a starred paragraph, `_extract_in_sequence` returns the
star-path relations with exactly the pruning applied; and whenever an item
produced at least one `ORG*→ORG` (Org→SubOrg) edge, the pruning removes
precisely those `ORG*→DOC_NAME` (StarredOrg→DocName) relations whose tail
text is already the tail of a direct plain `ORG→DOC_NAME` edge of the same
item, and leaves the multiplicity of every other relation unchanged (no
relation is added or otherwise removed). -/
theorem starred_prune_spec (docT : Str) (pid : Option Int) (star : EntitySpan)
    (rest : List EntitySpan) (out : List Relation)
    (hstarlab : star.label = "ORG_WITH_STAR_LABEL")
    (hsub : ∃ r ∈ out, r.kind = "ORG*→ORG") :
    extract_in_sequence docT (star :: rest) pid true =
      pruneStarDocs (starPathRelations docT (star :: rest) pid) ∧
    (pruneStarDocs out).Sublist out ∧
    (∀ r : Relation,
      (pruneStarDocs out).count r =
        if r.kind = "ORG*→DOC_NAME" ∧ r.tail.text ∈ docsFromOrg out
        then 0 else out.count r) := by
  refine ⟨?_, ?_, ?_⟩
  · unfold extract_in_sequence
    rw [if_pos (by simp [headIsStar, hstarlab])]
  · unfold pruneStarDocs
    by_cases h : out.any (fun r => r.kind = "ORG*→ORG")
    · rw [if_pos h]
      exact List.filter_sublist _
    · rw [if_neg h]
  · intro r
    unfold pruneStarDocs
    have hany : out.any (fun r => r.kind = "ORG*→ORG") = true := by
      rcases hsub with ⟨r0, hr0, hk0⟩
      exact List.any_eq_true.mpr ⟨r0, hr0, by simp [hk0]⟩
    rw [if_pos hany]
    rw [count_filter_eq]
    have hdup : isPrunedDup out r = true ↔
        (r.kind = "ORG*→DOC_NAME" ∧ r.tail.text ∈ docsFromOrg out) := by
      unfold isPrunedDup
      simp [List.elem_iff]
    by_cases hc : r.kind = "ORG*→DOC_NAME" ∧ r.tail.text ∈ docsFromOrg out
    · rw [if_pos hc]
      rw [if_neg (by simp [hdup.mpr hc])]
    · rw [if_neg hc]
      rw [if_pos (by
        cases h1 : isPrunedDup out r with
        | false => decide
        | true => exact absurd (hdup.mp h1) hc)]

/-- Closed instance of the C8 theorem: an item with one `ORG*→ORG` edge,
one `ORG→DOC_NAME` edge on title `X`, and one duplicate `ORG*→DOC_NAME`
edge on `X` — the duplicate is pruned and the direct edge is kept. -/
theorem starred_prune_spec_witness :
    (pruneStarDocs
        [⟨⟨"S".toList, "ORG_WITH_STAR_LABEL", 0, 1, some 0⟩,
            ⟨"O".toList, "ORG_LABEL", 2, 3, some 0⟩, "ORG*→ORG", some 0, []⟩,
          ⟨⟨"O".toList, "ORG_LABEL", 2, 3, some 0⟩,
            ⟨"X".toList, "DOC_NAME_LABEL", 4, 5, some 0⟩, "ORG→DOC_NAME", some 0, []⟩,
          ⟨⟨"S".toList, "ORG_WITH_STAR_LABEL", 0, 1, some 0⟩,
            ⟨"X".toList, "DOC_NAME_LABEL", 4, 5, some 0⟩, "ORG*→DOC_NAME", some 0, []⟩]).count
      (⟨⟨"S".toList, "ORG_WITH_STAR_LABEL", 0, 1, some 0⟩,
          ⟨"X".toList, "DOC_NAME_LABEL", 4, 5, some 0⟩, "ORG*→DOC_NAME", some 0, []⟩ : Relation)
      = 0 := by
  have h := (starred_prune_spec [] (some 0)
      ⟨"S".toList, "ORG_WITH_STAR_LABEL", 0, 1, some 0⟩ []
      [⟨⟨"S".toList, "ORG_WITH_STAR_LABEL", 0, 1, some 0⟩,
          ⟨"O".toList, "ORG_LABEL", 2, 3, some 0⟩, "ORG*→ORG", some 0, []⟩,
        ⟨⟨"O".toList, "ORG_LABEL", 2, 3, some 0⟩,
          ⟨"X".toList, "DOC_NAME_LABEL", 4, 5, some 0⟩, "ORG→DOC_NAME", some 0, []⟩,
        ⟨⟨"S".toList, "ORG_WITH_STAR_LABEL", 0, 1, some 0⟩,
          ⟨"X".toList, "DOC_NAME_LABEL", 4, 5, some 0⟩, "ORG*→DOC_NAME", some 0, []⟩]
      rfl
      ⟨⟨⟨"S".toList, "ORG_WITH_STAR_LABEL", 0, 1, some 0⟩,
          ⟨"O".toList, "ORG_LABEL", 2, 3, some 0⟩, "ORG*→ORG", some 0, []⟩,
        by decide, rfl⟩).2.2
    (⟨⟨"S".toList, "ORG_WITH_STAR_LABEL", 0, 1, some 0⟩,
        ⟨"X".toList, "DOC_NAME_LABEL", 4, 5, some 0⟩, "ORG*→DOC_NAME", some 0, []⟩ : Relation)
  rw [h]
  rw [if_pos (by decide)]

/-! ### Normalizers (`serie3_splitter/normalizers.py`) -/

namespace S3

/-- Dot-leader characters (`[.•·]`). -/
def isDotChar (c : Char) : Bool := c = '.' ∨ c = '•' ∨ c = '·'

/-- Accumulator pass of `_remove_dot_leaders`
(`re.sub(r"[.•·]{3,}", "", s)`): `pend` is the reversed current run of
dot-leader characters; a maximal run is dropped iff its length is at least
three. -/
def rdlAux : Str → Str → Str
  | [], pend => if 3 ≤ pend.length then [] else pend.reverse
  | c :: rest, pend =>
    if isDotChar c then rdlAux rest (c :: pend)
    else (if 3 ≤ pend.length then [] else pend.reverse) ++ c :: rdlAux rest []

/-- `_remove_dot_leaders`. -/
def remove_dot_leaders (s : Str) : Str := rdlAux s []

/-- State machine pass of `_fix_hyphen_linewraps`
(`re.sub(r"-\s*(?:\r?\n|\n)\s*", "", s)`): after a `-` the machine collects
the following maximal whitespace run (`ws`, reversed); the hyphen and the
run are dropped iff the run contains a newline (the greedy `\s*`s make the
regex consume exactly the maximal run, which must contain the mandatory
`\n`). -/
def fhwAux : Str → Option Str → Str
  | [], none => []
  | [], some ws => if '\n' ∈ ws then [] else '-' :: ws.reverse
  | c :: rest, none =>
    if c = '-' then fhwAux rest (some []) else c :: fhwAux rest none
  | c :: rest, some ws =>
    if isPySpace c then fhwAux rest (some (c :: ws))
    else
      (if '\n' ∈ ws then [] else '-' :: ws.reverse) ++
        (if c = '-' then fhwAux rest (some []) else c :: fhwAux rest none)

/-- `_fix_hyphen_linewraps`. -/
def fix_hyphen_linewraps (s : Str) : Str := fhwAux s none

/-- The character class `[A-Za-zÀ-ÿ]` of `_INTERLETTER_SEQ_RE` under the
`(?i)` flag (the range `À`..`ÿ` includes `×` and `÷`; case-insensitive
matching also lets `Ÿ`, the uppercase of `ÿ`, match the class). -/
def isILSLetter (c : Char) : Bool :=
  ('A' ≤ c ∧ c ≤ 'Z') ∨ ('a' ≤ c ∧ c ≤ 'z') ∨
  (0xc0 ≤ c.toNat ∧ c.toNat ≤ 0xff) ∨ c.toNat = 0x178

/-- Model of the regex word character `\w` (for `\b`) on the Latin-1
repertoire: ASCII alphanumerics, underscore, and the Latin-1 letters
(excluding the operators `×` and `÷`). -/
def isWordChar (c : Char) : Bool :=
  ('A' ≤ c ∧ c ≤ 'Z') ∨ ('a' ≤ c ∧ c ≤ 'z') ∨ ('0' ≤ c ∧ c ≤ '9') ∨ c = '_' ∨
  c.toNat = 0xaa ∨ c.toNat = 0xb5 ∨ c.toNat = 0xba ∨
  (0xc0 ≤ c.toNat ∧ c.toNat ≤ 0xff ∧ c.toNat ≠ 0xd7 ∧ c.toNat ≠ 0xf7) ∨
  c.toNat = 0x178

/-- Flatten a list of (letter, whitespace-run) pairs back to text. -/
def flattenPairs (ps : List (Char × Str)) : Str :=
  (ps.map (fun p => p.1 :: p.2)).flatten

/-- Backtracking split for `(?:[cls]\s+){2,}[cls]\b` on a peeled chain:
on the reversed pair list, find the latest pair whose letter can serve as
the final letter — it must be a word character (the following whitespace
then provides the closing `\b`) and at least two pairs must precede it.
Returns `(laterRev, final, earlierRev)`. -/
def backtrackSplit : List (Char × Str) →
    Option (List (Char × Str) × (Char × Str) × List (Char × Str))
  | [] => none
  | p :: ps =>
    if isWordChar p.1 ∧ 2 ≤ ps.length then some ([], p, ps)
    else
      match backtrackSplit ps with
      | some (later, pj, earlier) => some (p :: later, pj, earlier)
      | none => none

/-- Word boundary after a final letter `L` when `next` follows it (`none` =
end of input, where `\b` holds iff `L` is a word character). -/
def boundaryAfter (L : Char) : Option Char → Bool
  | none => isWordChar L
  | some c => isWordChar L ≠ isWordChar c

/-- Resolve a pending single-letter chain when the pattern can no longer be
extended.  `pairsRev` is the reversed list of peeled (letter, whitespace)
pairs; `pend` is a trailing letter not (yet) followed by whitespace;
`next` is the character after the chain (`none` at end of input).  The
greedy engine first tries all pairs as repetitions with `pend` as the final
letter (needs `≥ 2` pairs and a word boundary after `pend`), then
backtracks to an earlier final letter; on failure everything is emitted
verbatim. -/
def resolveChain (pairsRev : List (Char × Str)) (pend : Option Char)
    (next : Option Char) : Str :=
  match pend with
  | some L =>
    if 2 ≤ pairsRev.length ∧ boundaryAfter L next then
      (pairsRev.reverse.map Prod.fst) ++ [L]
    else
      match backtrackSplit pairsRev with
      | some (laterRev, pj, earlierRev) =>
        (earlierRev.reverse.map Prod.fst) ++ pj.1 :: pj.2 ++
          flattenPairs laterRev.reverse ++ [L]
      | none => flattenPairs pairsRev.reverse ++ [L]
  | none =>
    match backtrackSplit pairsRev with
    | some (laterRev, pj, earlierRev) =>
      (earlierRev.reverse.map Prod.fst) ++ pj.1 :: pj.2 ++
        flattenPairs laterRev.reverse
    | none => flattenPairs pairsRev.reverse

/-- `isWordChar` of the last emitted character (`dflt` when nothing was
emitted). -/
def lastWordChar (s : Str) (dflt : Bool) : Bool :=
  match s.getLast? with
  | some c => isWordChar c
  | none => dflt

/-- Scanner for `_collapse_interletter_spacing`
(`re.sub` of `(?i)\b(?:[A-Za-zÀ-ÿ]\s+){2,}[A-Za-zÀ-ÿ]\b` replacing each
match by the match with its whitespace removed).  The state is `none`
(idle) or a pending chain: reversed peeled pairs plus either a letter
waiting for whitespace (`Sum.inl`) or a letter with its growing whitespace
run (`Sum.inr`).  A chain can only open at a word boundary on a class
letter; failed chains are re-emitted verbatim, which is faithful because
no match can start strictly inside a failed chain region. -/
def ilsGo : Str → Bool → Option (List (Char × Str) × Sum Char (Char × Str)) → Str
  | [], _, none => []
  | [], _, some (pairsRev, Sum.inl L) => resolveChain pairsRev (some L) none
  | [], _, some (pairsRev, Sum.inr (L, ws)) =>
    resolveChain ((L, ws.reverse) :: pairsRev) none none
  | c :: rest, prevW, none =>
    if (prevW ≠ isWordChar c) ∧ isILSLetter c then
      ilsGo rest prevW (some ([], Sum.inl c))
    else c :: ilsGo rest (isWordChar c) none
  | c :: rest, prevW, some (pairsRev, Sum.inl L) =>
    if isPySpace c then ilsGo rest prevW (some (pairsRev, Sum.inr (L, [c])))
    else
      let emitted := resolveChain pairsRev (some L) (some c)
      let prevW2 := lastWordChar emitted prevW
      emitted ++
        (if (prevW2 ≠ isWordChar c) ∧ isILSLetter c then
          ilsGo rest prevW2 (some ([], Sum.inl c))
        else c :: ilsGo rest (isWordChar c) none)
  | c :: rest, prevW, some (pairsRev, Sum.inr (L, ws)) =>
    if isPySpace c then ilsGo rest prevW (some (pairsRev, Sum.inr (L, c :: ws)))
    else if isILSLetter c then
      ilsGo rest prevW (some ((L, ws.reverse) :: pairsRev, Sum.inl c))
    else
      let emitted := resolveChain ((L, ws.reverse) :: pairsRev) none (some c)
      let prevW2 := lastWordChar emitted prevW
      emitted ++
        (if (prevW2 ≠ isWordChar c) ∧ isILSLetter c then
          ilsGo rest prevW2 (some ([], Sum.inl c))
        else c :: ilsGo rest (isWordChar c) none)

/-- `_collapse_interletter_spacing`. -/
def collapse_interletter_spacing (s : Str) : Str := ilsGo s false none

/-- `_normalize_unicode_spaces`: NFKC (modelled as the identity on the
Latin-1 repertoire, where every modelled character is NFKC-fixed), NBSP to
space, then whitespace collapse. -/
def normalize_unicode_spaces (s : Str) : Str :=
  collapseWS (s.map (fun c => if c.toNat = 0xa0 then ' ' else c))

/-- `_ocr_clean`. -/
def ocr_clean (s : Str) : Str :=
  normalize_unicode_spaces
    (collapse_interletter_spacing (remove_dot_leaders (fix_hyphen_linewraps s)))

/-- `_normalize_title` (`serie3_splitter/normalizers.py`): strip; when the
whole string is bolded, drop the delimiters, re-strip, collapse whitespace
and drop one trailing colon. -/
def normalize_title (s : Str) : Str :=
  let s1 := pyStrip s
  if "**".toList.isPrefixOf s1 ∧ "**".toList.isSuffixOf s1 ∧ 4 ≤ s1.length then
    let s2 := pyStrip ((s1.drop 2).take (s1.length - 4))
    let s3 := collapseWS s2
    if s3.getLast? = some ':' then rstrip s3.dropLast else s3
  else s1

/-- `_tighten`: remove all spaces. -/
def tighten (s : Str) : Str := s.filter (fun c => c ≠ ' ')

/-- `_letters_only`: strip accents, lowercase, keep `[a-z0-9]`. -/
def letters_only (s : Str) : Str :=
  ((strip_accents s).map pyLower).filter
    (fun c => ('a' ≤ c ∧ c ≤ 'z') ∨ ('0' ≤ c ∧ c ≤ '9'))

/-- `_char_ngrams`. -/
def char_ngrams (s : Str) (n : Nat) : Finset Str :=
  if s.length < n then (if s = [] then ∅ else {s})
  else ((List.range (s.length - n + 1)).map (fun i => (s.drop i).take n)).toFinset

/-! ### Fuzzy matching cascade (`serie3_splitter/matching.py`) -/

/-- Modelled from the spec: `serie3_splitter/config.py` is not in the
snapshot; the spec fixes the containment length-ratio floor
`LETTERS_MIN_RATIO` at 0.5 (shorter/longer). -/
def lettersFloor : ℚ := mkRat 1 2

/-- Modelled from the spec: `NGRAM_N` is 3 (character trigrams). -/
def ngramSize : Nat := 3

/-- Modelled from the spec: `NGRAM_JACCARD_MIN` is ≈ 0.5. -/
def jaccardFloor : ℚ := mkRat 1 2

/-- Modelled from the spec: `MIN_LEN_FOR_NGRAMS` is 6 letters-only
characters. -/
def minLenNgrams : Nat := 6

/-- `"\n".join(block_titles)`. -/
def joinNL : List Str → Str
  | [] => []
  | [s] => s
  | s :: rest => s ++ '\n' :: joinNL rest

/-- One entry of `prepared_allowed`:
`(t, t_norm, t_tight, t_letters)` for an allowed title `t`. -/
structure Prepared where
  orig : Str
  norm : Str
  tightK : Str
  lettersK : Str

/-- Preparation of one allowed title in `pick_canonical_from_block`. -/
def prepare (t : Str) : Prepared :=
  let tn := normalize_title (ocr_clean t)
  ⟨t, tn, tighten tn, letters_only tn⟩

/-- `inter/union if union else 0.0`; the Python float division of two
small naturals is modelled by the exact rational `mkRat`. -/
def jaccardQ (a b : Finset Str) : ℚ :=
  if (a ∪ b).card = 0 then 0 else mkRat ((a ∩ b).card : Int) ((a ∪ b).card)

/-- The stage-5 best-candidate loop: skip candidates whose letters-only
form is shorter than `MIN_LEN_FOR_NGRAMS` or has no n-grams; otherwise keep
the candidate with the highest Jaccard similarity that clears
`NGRAM_JACCARD_MIN` (strict improvement over the running best). -/
def ngramBest (bj : Finset Str) : List Prepared → (Option Str × ℚ) → (Option Str × ℚ)
  | [], best => best
  | p :: ps, best =>
    if p.lettersK.length < minLenNgrams then ngramBest bj ps best
    else
      let al := char_ngrams p.lettersK ngramSize
      if al = ∅ then ngramBest bj ps best
      else
        let j := jaccardQ bj al
        if jaccardFloor ≤ j ∧ best.2 < j then ngramBest bj ps (some p.orig, j)
        else ngramBest bj ps best

/-- The five-stage cascade shared by the block-level and per-line paths of
`pick_canonical_from_block`, on the normalized text `bn`; `guardNorm` is
true at block level, where stage 1 additionally requires `bn` to be
non-empty (the per-line stage 1 in the source has no emptiness guard). -/
def cascadeAt (guardNorm : Bool) (bn : Str) (prepared : List Prepared) : Option Str :=
  let bt := tighten bn
  let bl := letters_only bn
  let s1 := (prepared.find? (fun p => (!guardNorm || !bn.isEmpty) && bn == p.norm)).map (·.orig)
  let s2 := (prepared.find? (fun p => !bt.isEmpty && bt == p.tightK)).map (·.orig)
  let s3 := (prepared.find? (fun p => !bl.isEmpty && bl == p.lettersK)).map (·.orig)
  let s4 := (prepared.find? (fun p =>
      !bl.isEmpty && !p.lettersK.isEmpty &&
      (strContains p.lettersK bl || strContains bl p.lettersK) &&
      decide (0 < max bl.length p.lettersK.length ∧
        lettersFloor ≤ mkRat (min bl.length p.lettersK.length : Int)
          (max bl.length p.lettersK.length)))).map (·.orig)
  let s5 := if minLenNgrams ≤ bl.length then
      (ngramBest (char_ngrams bl ngramSize) prepared (none, 0)).1
    else none
  (((s1 <|> s2) <|> s3) <|> s4) <|> s5

/-- The per-line fallback loop of `pick_canonical_from_block`. -/
def perLine (prepared : List Prepared) : List Str → Option Str
  | [] => none
  | bt :: rest =>
    match cascadeAt false (normalize_title (ocr_clean bt)) prepared with
    | some x => some x
    | none => perLine prepared rest

/-- `pick_canonical_from_block` (`serie3_splitter/matching.py`); the
allowed-title set is given in its Python iteration order. -/
def pick_canonical_from_block (block_titles : List Str)
    (allowed_titles : List Str) : Option Str :=
  if allowed_titles.isEmpty then none
  else
    let prepared := allowed_titles.map prepare
    let bj_norm := normalize_title (ocr_clean (joinNL block_titles))
    match cascadeAt true bj_norm prepared with
    | some x => some x
    | none => perLine prepared block_titles

/-- The normalization `_normalize_title ∘ _ocr_clean` that
`pick_canonical_from_block` applies to both the block text and each allowed
title. -/
def titleNorm (s : Str) : Str := normalize_title (ocr_clean s)

theorem ngramBest_singleton (bj : Finset Str) (p : Prepared) :
    (ngramBest bj [p] (none, 0)).1 =
      if minLenNgrams ≤ p.lettersK.length ∧
          ¬ char_ngrams p.lettersK ngramSize = ∅ ∧
          jaccardFloor ≤ jaccardQ bj (char_ngrams p.lettersK ngramSize) ∧
          (0:ℚ) < jaccardQ bj (char_ngrams p.lettersK ngramSize) then some p.orig
      else none := by
  by_cases h1 : p.lettersK.length < minLenNgrams
  · rw [ngramBest, if_pos h1, ngramBest, if_neg]
    rintro ⟨h, -⟩; omega
  · rw [ngramBest, if_neg h1]
    dsimp only
    by_cases h2 : char_ngrams p.lettersK ngramSize = ∅
    · rw [if_pos h2, ngramBest, if_neg]
      rintro ⟨-, h, -⟩; exact h h2
    · rw [if_neg h2]
      by_cases h3 : jaccardFloor ≤ jaccardQ bj (char_ngrams p.lettersK ngramSize) ∧
          (0:ℚ) < jaccardQ bj (char_ngrams p.lettersK ngramSize)
      · rw [if_pos h3, ngramBest, if_pos ⟨by omega, h2, h3⟩]
      · rw [if_neg h3, ngramBest, if_neg]
        rintro ⟨-, -, h⟩; exact h3 h

/-- Stage 1 of the cascade: exact normalized equality. -/
abbrev stage1Hit (bn : Str) (p : Prepared) : Prop := bn = p.norm

/-- Stage 2: exact tight-key (space-free) equality, keys non-empty. -/
abbrev stage2Hit (bn : Str) (p : Prepared) : Prop :=
  tighten bn ≠ [] ∧ tighten bn = p.tightK

/-- Stage 3: exact letters-only equality, keys non-empty. -/
abbrev stage3Hit (bn : Str) (p : Prepared) : Prop :=
  letters_only bn ≠ [] ∧ letters_only bn = p.lettersK

/-- Stage 4: letters-only containment in either direction, with
shorter/longer length ratio at least `LETTERS_MIN_RATIO`. -/
abbrev stage4Hit (bn : Str) (p : Prepared) : Prop :=
  letters_only bn ≠ [] ∧ p.lettersK ≠ [] ∧
  (strContains p.lettersK (letters_only bn) = true ∨
    strContains (letters_only bn) p.lettersK = true) ∧
  0 < max (letters_only bn).length p.lettersK.length ∧
  lettersFloor ≤ mkRat (min (letters_only bn).length p.lettersK.length : Int)
    (max (letters_only bn).length p.lettersK.length)

/-- Stage 5: both letters-only strings at least `MIN_LEN_FOR_NGRAMS` long
and trigram Jaccard similarity at least `NGRAM_JACCARD_MIN` (and positive,
as the loop requires strict improvement over the initial best of 0.0). -/
abbrev stage5Hit (bn : Str) (p : Prepared) : Prop :=
  minLenNgrams ≤ (letters_only bn).length ∧ minLenNgrams ≤ p.lettersK.length ∧
  char_ngrams p.lettersK ngramSize ≠ ∅ ∧
  jaccardFloor ≤ jaccardQ (char_ngrams (letters_only bn) ngramSize)
    (char_ngrams p.lettersK ngramSize) ∧
  (0:ℚ) < jaccardQ (char_ngrams (letters_only bn) ngramSize)
    (char_ngrams p.lettersK ngramSize)

theorem find?_singleton {α : Type} (f : α → Bool) (a : α) :
    List.find? f [a] = if f a then some a else none := by
  cases h : f a <;> simp [List.find?, h]

theorem cascadeAt_singleton (g : Bool) (bn : Str) (p : Prepared) :
    cascadeAt g bn [p] =
      if ((g = true → bn ≠ []) ∧ stage1Hit bn p) ∨ stage2Hit bn p ∨
          stage3Hit bn p ∨ stage4Hit bn p ∨ stage5Hit bn p then
        some p.orig
      else none := by
  have hb1 : (((!g || !bn.isEmpty) && bn == p.norm) = true) ↔
      ((g = true → bn ≠ []) ∧ stage1Hit bn p) := by
    cases g <;> simp [stage1Hit, List.isEmpty_iff]
  have hb2 : ((!(tighten bn).isEmpty && tighten bn == p.tightK) = true) ↔
      stage2Hit bn p := by
    simp [stage2Hit, List.isEmpty_iff]
  have hb3 : ((!(letters_only bn).isEmpty && letters_only bn == p.lettersK) = true) ↔
      stage3Hit bn p := by
    simp [stage3Hit, List.isEmpty_iff]
  have hb4 : ((!(letters_only bn).isEmpty && !p.lettersK.isEmpty &&
      (strContains p.lettersK (letters_only bn) ||
        strContains (letters_only bn) p.lettersK) &&
      decide (0 < max (letters_only bn).length p.lettersK.length ∧
        lettersFloor ≤ mkRat (min (letters_only bn).length p.lettersK.length : Int)
          (max (letters_only bn).length p.lettersK.length))) = true) ↔
      stage4Hit bn p := by
    simp [stage4Hit, List.isEmpty_iff, and_assoc]
  unfold cascadeAt
  dsimp only
  rw [find?_singleton, find?_singleton, find?_singleton, find?_singleton,
    ngramBest_singleton]
  by_cases h1 : ((g = true → bn ≠ []) ∧ stage1Hit bn p)
  · rw [if_pos (hb1.mpr h1), if_pos (Or.inl h1)]
    rfl
  · rw [if_neg (fun h => h1 (hb1.mp h)), Option.map_none', Option.none_orElse]
    by_cases h2 : stage2Hit bn p
    · rw [if_pos (hb2.mpr h2), if_pos (Or.inr (Or.inl h2))]
      rfl
    · rw [if_neg (fun h => h2 (hb2.mp h)), Option.map_none', Option.none_orElse]
      by_cases h3 : stage3Hit bn p
      · rw [if_pos (hb3.mpr h3), if_pos (Or.inr (Or.inr (Or.inl h3)))]
        rfl
      · rw [if_neg (fun h => h3 (hb3.mp h)), Option.map_none', Option.none_orElse]
        by_cases h4 : stage4Hit bn p
        · rw [if_pos (hb4.mpr h4), if_pos (Or.inr (Or.inr (Or.inr (Or.inl h4))))]
          rfl
        · rw [if_neg (fun h => h4 (hb4.mp h)), Option.map_none', Option.none_orElse]
          by_cases h5a : minLenNgrams ≤ (letters_only bn).length
          · rw [if_pos h5a]
            by_cases h5b : minLenNgrams ≤ p.lettersK.length ∧
                ¬ char_ngrams p.lettersK ngramSize = ∅ ∧
                jaccardFloor ≤ jaccardQ (char_ngrams (letters_only bn) ngramSize)
                  (char_ngrams p.lettersK ngramSize) ∧
                (0:ℚ) < jaccardQ (char_ngrams (letters_only bn) ngramSize)
                  (char_ngrams p.lettersK ngramSize)
            · rw [if_pos h5b,
                if_pos (Or.inr (Or.inr (Or.inr (Or.inr ⟨h5a, h5b⟩))))]
            · rw [if_neg h5b, if_neg]
              rintro (hx | hx | hx | hx | hx)
              · exact h1 hx
              · exact h2 hx
              · exact h3 hx
              · exact h4 hx
              · exact h5b ⟨hx.2.1, hx.2.2.1, hx.2.2.2⟩
          · rw [if_neg h5a, if_neg]
            rintro (hx | hx | hx | hx | hx)
            · exact h1 hx
            · exact h2 hx
            · exact h3 hx
            · exact h4 hx
            · exact h5a hx.1

theorem pick_singleton_eq (b a : Str) :
    pick_canonical_from_block [b] [a] =
      if stage1Hit (titleNorm b) (prepare a) ∨ stage2Hit (titleNorm b) (prepare a) ∨
          stage3Hit (titleNorm b) (prepare a) ∨ stage4Hit (titleNorm b) (prepare a) ∨
          stage5Hit (titleNorm b) (prepare a) then some a else none := by
  have e : pick_canonical_from_block [b] [a] =
      (match cascadeAt true (titleNorm b) [prepare a] with
       | some x => some x
       | none =>
         match cascadeAt false (titleNorm b) [prepare a] with
         | some x => some x
         | none => none) := rfl
  rw [cascadeAt_singleton, cascadeAt_singleton] at e
  by_cases hS : stage1Hit (titleNorm b) (prepare a) ∨ stage2Hit (titleNorm b) (prepare a) ∨
      stage3Hit (titleNorm b) (prepare a) ∨ stage4Hit (titleNorm b) (prepare a) ∨
      stage5Hit (titleNorm b) (prepare a)
  · rw [if_pos hS]
    have hf : ((false = true → titleNorm b ≠ []) ∧ stage1Hit (titleNorm b) (prepare a)) ∨
        stage2Hit (titleNorm b) (prepare a) ∨ stage3Hit (titleNorm b) (prepare a) ∨
        stage4Hit (titleNorm b) (prepare a) ∨ stage5Hit (titleNorm b) (prepare a) := by
      rcases hS with h | h
      · exact Or.inl ⟨fun hc => absurd hc Bool.false_ne_true, h⟩
      · exact Or.inr h
    by_cases hg : ((true = true → titleNorm b ≠ []) ∧ stage1Hit (titleNorm b) (prepare a)) ∨
        stage2Hit (titleNorm b) (prepare a) ∨ stage3Hit (titleNorm b) (prepare a) ∨
        stage4Hit (titleNorm b) (prepare a) ∨ stage5Hit (titleNorm b) (prepare a)
    · rw [if_pos hg] at e
      exact e
    · rw [if_neg hg, if_pos hf] at e
      exact e
  · have hg : ¬ (((true = true → titleNorm b ≠ []) ∧ stage1Hit (titleNorm b) (prepare a)) ∨
        stage2Hit (titleNorm b) (prepare a) ∨ stage3Hit (titleNorm b) (prepare a) ∨
        stage4Hit (titleNorm b) (prepare a) ∨ stage5Hit (titleNorm b) (prepare a)) := by
      rintro (⟨-, h⟩ | h)
      · exact hS (Or.inl h)
      · exact hS (Or.inr h)
    have hf : ¬ (((false = true → titleNorm b ≠ []) ∧ stage1Hit (titleNorm b) (prepare a)) ∨
        stage2Hit (titleNorm b) (prepare a) ∨ stage3Hit (titleNorm b) (prepare a) ∨
        stage4Hit (titleNorm b) (prepare a) ∨ stage5Hit (titleNorm b) (prepare a)) := by
      rintro (⟨-, h⟩ | h)
      · exact hS (Or.inl h)
      · exact hS (Or.inr h)
    rw [if_neg hg, if_neg hf] at e
    rw [if_neg hS]
    exact e

set_option maxHeartbeats 1000000 in
/-- **C5.** The fuzzy matching cascade of `pick_canonical_from_block`
declares a match between a block text and an allowed title exactly when one
of its five stages fires — exact normalized equality, exact tight-key
equality, exact letters-only equality, containment with shorter/longer
letters-only length ratio at least 0.5, or trigram Jaccard at least 0.5
with both letters-only strings at least 6 characters long — so no match is
ever declared below a stage's floor; every returned canonical title is one
of the allowed titles; and the stages are evaluated in cascade order: an
exact-normalized hit on a later allowed title beats any lower-stage hit of
an earlier one. -/
theorem cascade_stage_floor_spec (b a : Str) :
    (pick_canonical_from_block [b] [a] = some a ↔
      (stage1Hit (titleNorm b) (prepare a) ∨ stage2Hit (titleNorm b) (prepare a) ∨
        stage3Hit (titleNorm b) (prepare a) ∨ stage4Hit (titleNorm b) (prepare a) ∨
        stage5Hit (titleNorm b) (prepare a))) ∧
    (∀ x, pick_canonical_from_block [b] [a] = some x → x = a) ∧
    (∀ a1 a2 : Str, titleNorm b ≠ [] → titleNorm b = titleNorm a2 →
      titleNorm b ≠ titleNorm a1 →
      pick_canonical_from_block [b] [a1, a2] = some a2) := by
  refine ⟨?_, ?_, ?_⟩
  · rw [pick_singleton_eq]
    by_cases hS : stage1Hit (titleNorm b) (prepare a) ∨ stage2Hit (titleNorm b) (prepare a) ∨
        stage3Hit (titleNorm b) (prepare a) ∨ stage4Hit (titleNorm b) (prepare a) ∨
        stage5Hit (titleNorm b) (prepare a)
    · rw [if_pos hS]
      exact iff_of_true rfl hS
    · rw [if_neg hS]
      exact iff_of_false (fun h => Option.noConfusion h) hS
  · intro x hx
    rw [pick_singleton_eq] at hx
    by_cases hS : stage1Hit (titleNorm b) (prepare a) ∨ stage2Hit (titleNorm b) (prepare a) ∨
        stage3Hit (titleNorm b) (prepare a) ∨ stage4Hit (titleNorm b) (prepare a) ∨
        stage5Hit (titleNorm b) (prepare a)
    · rw [if_pos hS] at hx
      exact (Option.some_injective _ hx).symm
    · rw [if_neg hS] at hx
      exact absurd hx (fun h => Option.noConfusion h)
  · intro a1 a2 hne h2 h1
    have e : pick_canonical_from_block [b] [a1, a2] =
        (match cascadeAt true (titleNorm b) [prepare a1, prepare a2] with
         | some x => some x
         | none => perLine [prepare a1, prepare a2] [b]) := rfl
    have hne1 : ((!true || !(titleNorm b).isEmpty) && titleNorm b == (prepare a1).norm) = false := by
      rw [show (prepare a1).norm = titleNorm a1 from rfl,
        beq_eq_false_iff_ne.mpr h1, Bool.and_false]
    have hpos2 : ((!true || !(titleNorm b).isEmpty) && titleNorm b == (prepare a2).norm) = true := by
      rw [show (prepare a2).norm = titleNorm a2 from rfl, ← h2]
      simp [List.isEmpty_eq_false.mpr hne]
    have hfind : List.find?
        (fun p => (!true || !(titleNorm b).isEmpty) && titleNorm b == p.norm)
        [prepare a1, prepare a2] = some (prepare a2) := by
      rw [List.find?_cons_of_neg _ (by rw [hne1]; exact fun h => Bool.false_ne_true h),
        find?_singleton, if_pos hpos2]
    have hcas : cascadeAt true (titleNorm b) [prepare a1, prepare a2] = some a2 := by
      unfold cascadeAt
      dsimp only
      rw [hfind]
      rfl
    rw [e, hcas]

/-- Witness: the cascade matches a block title to an allowed title that is
equal after whitespace normalization (stage 1), and an exact-normalized hit
on the second allowed title wins over a non-matching first one. -/
theorem cascade_stage_floor_spec_witness :
    pick_canonical_from_block ["Despacho  5".toList] ["Despacho 5".toList] =
      some ("Despacho 5".toList) ∧
    pick_canonical_from_block ["Despacho  5".toList]
      ["Aviso".toList, "Despacho 5".toList] = some ("Despacho 5".toList) :=
  ⟨(cascade_stage_floor_spec ("Despacho  5".toList) ("Despacho 5".toList)).1.mpr
      (Or.inl (by decide)),
   (cascade_stage_floor_spec ("Despacho  5".toList) ("Despacho 5".toList)).2.2
      ("Aviso".toList) ("Despacho 5".toList) (by decide) (by decide) (by decide)⟩

end S3

/-! ### Serie III body aligner (`body_extractionIII.py`) -/

namespace BIII

/-- A payload item (`payload["items"][i]`): `docNameText` is
`(item.get("doc_name") or {}).get("text") or ""` (absent titles collapse to
the empty string, as in the source). -/
structure ItemIII where
  paragraph_id : Option Int
  org_ids : List Int
  docNameText : Str
deriving DecidableEq, Repr

/-- One entry of `payload["orgs"]`. -/
structure OrgEntry where
  id : Option Int
  text : Str
deriving DecidableEq, Repr

/-- The `payload` argument: either a structured object (`dict`) with its
`orgs` and `items` lists, or any non-dict value. -/
inductive PayloadIII where
  | nonDict
  | dict (orgs : List OrgEntry) (items : List ItemIII)

/-- Python `dict` assignment `d[k] = v`: update in place (keeping the
key's insertion position) or append. -/
def dictSet {α β : Type} [BEq α] (d : List (α × β)) (k : α) (v : β) :
    List (α × β) :=
  if d.any (fun p => p.1 == k) then
    d.map (fun p => if p.1 == k then (p.1, v) else p)
  else d ++ [(k, v)]

/-- Python `d.get(k)`. -/
def dictGet {α β : Type} [BEq α] (d : List (α × β)) (k : α) : Option β :=
  (d.find? (fun p => p.1 == k)).map (fun p => p.2)

/-- `_build_org_map`: id → stripped name for every org carrying an id;
a synthetic `(Sem organização)` entry when no org has one. -/
def build_org_map (orgs : List OrgEntry) : List (Int × Str) :=
  let out := orgs.foldl (fun out o =>
    match o.id with
    | some oid => dictSet out oid (pyStrip o.text)
    | none => out) []
  if out.isEmpty then [(-1, "(Sem organização)".toList)] else out

/-- Python `d.setdefault(k, []).append(v)`. -/
def setdefaultAppend {α β : Type} [BEq α] (d : List (α × List β)) (k : α) (v : β) :
    List (α × List β) :=
  if d.any (fun p => p.1 == k) then
    d.map (fun p => if p.1 == k then (p.1, p.2 ++ [v]) else p)
  else d ++ [(k, [v])]

/-- `_group_items_by_org`. -/
def group_items_by_org (items : List ItemIII) : List (Int × List ItemIII) :=
  items.foldl (fun d it => it.org_ids.foldl (fun d oid => setdefaultAppend d oid it) d) []

/-- `_normalize_title` (`body_extractionIII.py`): unlike the
`serie3_splitter` variant, the whitespace collapse and the trailing-colon
strip apply to every input, not only to bolded ones. -/
def normalize_titleIII (s : Str) : Str :=
  let s1 := pyStrip s
  let s2 :=
    if "**".toList.isPrefixOf s1 ∧ "**".toList.isSuffixOf s1 ∧ 4 ≤ s1.length then
      pyStrip ((s1.drop 2).take (s1.length - 4))
    else s1
  let s3 := collapseWS s2
  if s3.getLast? = some ':' then rstrip s3.dropLast else s3

/-- `_tighten` (`body_extractionIII.py`): remove all spaces. -/
def tightenIII (s : Str) : Str := s.filter (fun c => c ≠ ' ')

/-- A window `{"name", "start", "end"}`. -/
structure WindowIII where
  name : Str
  start : Nat
  end_ : Nat
deriving DecidableEq, Repr

/-- The pairing loop of `_collect_org_windows_from_ents`: each ORG entity
opens a window that closes at the next ORG entity's start (or the text
length). -/
def tileEntsIII (textLen : Nat) : List EntSpan → List WindowIII
  | [] => []
  | [e] => [⟨e.text, e.start_char, textLen⟩]
  | e :: e2 :: rest => ⟨e.text, e.start_char, e2.start_char⟩ :: tileEntsIII textLen (e2 :: rest)

/-- `_collect_org_windows_from_ents` (`body_extractionIII.py`): windows
from `ORG_LABEL` entities, or one synthetic `(global)` window. -/
def collect_org_windows_III (doc : DocBody) : List WindowIII :=
  let ents := doc.ents.filter (fun e => e.label == "ORG_LABEL")
  let windows := tileEntsIII doc.text.length ents
  if windows.isEmpty then [⟨"(global)".toList, 0, doc.text.length⟩] else windows

/-- `_simple_token_set`. -/
def simple_token_set (s : Str) : Finset Str :=
  ((pyWords s).map lowerStr).toFinset

/-- `_jaccard` on token sets (float division modelled as the exact
rational `mkRat`). -/
def jaccardIII (a b : Finset Str) : ℚ :=
  if a = ∅ ∧ b = ∅ then 0
  else if (a ∪ b).card = 0 then 0
  else mkRat ((a ∩ b).card : Int) ((a ∪ b).card)

/-- The best-window scan of `_match_org_to_window` (`best_score` starts at
`-1.0`, strict improvement). -/
def bestWindowLoop (a : Finset Str) : List (Nat × WindowIII) →
    (Option Nat × ℚ) → (Option Nat × ℚ)
  | [], best => best
  | (i, w) :: rest, best =>
    let sc := jaccardIII a (simple_token_set w.name)
    if best.2 < sc then bestWindowLoop a rest (some i, sc)
    else bestWindowLoop a rest best

/-- `_match_org_to_window`: best token-Jaccard window and the resulting
status (the source's status conditional yields `org_unanchored` in both of
its fallback branches, so the status is `org_anchored` exactly when the
best score is positive). -/
def match_org_to_window (org_name : Str) (org_windows : List WindowIII) :
    Option Nat × Str :=
  if org_windows.isEmpty then (none, "org_unanchored".toList)
  else
    let a := simple_token_set org_name
    let best := bestWindowLoop a org_windows.enum (none, mkRat (-1) 1)
    (best.1, if 0 < best.2 then "org_anchored".toList else "org_unanchored".toList)

/-- The stable key of `_doc_type_key`; CPython's `hash` of the `org_ids`
tuple is modelled injectively by the tuple itself. -/
def docTypeKey (it : ItemIII) : Int × List Int × Str :=
  (it.paragraph_id.getD (-1), it.org_ids, normalize_titleIII it.docNameText)

/-- `_locate_window`. -/
def locateWindowAux (pos : Nat) : Nat → List WindowIII → Option Nat
  | _, [] => none
  | i, w :: rest =>
    if w.start ≤ pos ∧ pos < w.end_ then some i else locateWindowAux pos (i + 1) rest

/-- `_locate_window`: index of the first window containing `pos`. -/
def locateWindow (pos : Nat) (windows : List WindowIII) : Option Nat :=
  locateWindowAux pos 0 windows

/-- The key type of `_doc_type_key`. -/
abbrev KeyIII := Int × List Int × Str

/-- One entry of `payload_titles` in `_match_doc_type_headers`. -/
structure PayloadTitle where
  key : KeyIII
  title : Str
  tightK : Str
  item : ItemIII
deriving DecidableEq, Repr

/-- One entry of `body_titles` in `_match_doc_type_headers`. -/
structure BodyTitle where
  ent : EntSpan
  title : Str
  tightK : Str
deriving DecidableEq, Repr

/-- A match dict `{"start", "end", "window_index", "confidence"}`. -/
structure MatchIII where
  start : Nat
  end_ : Nat
  window_index : Option Nat
  confidence : ℚ
deriving DecidableEq, Repr

/-- The mutable state of `_match_doc_type_headers`: the `matchesD` dict and
the `claimed_positions` set. -/
structure MatchState where
  matchesD : List (KeyIII × Option MatchIII)
  claimed : List (Nat × Nat)

/-- The payload side of `_match_doc_type_headers`: normalized non-empty
titles with their keys. -/
def payloadTitles (items : List ItemIII) : List PayloadTitle :=
  items.filterMap (fun it =>
    let title := normalize_titleIII it.docNameText
    if title = [] then none
    else some ⟨docTypeKey it, title, tightenIII title, it⟩)

/-- The body side of `_match_doc_type_headers`: `DOC_NAME_LABEL` entities
with non-empty normalized text. -/
def bodyTitles (doc : DocBody) : List BodyTitle :=
  doc.ents.filterMap (fun e =>
    if e.label == "DOC_NAME_LABEL" then
      let tn := normalize_titleIII e.text
      if tn = [] then none else some ⟨e, tn, tightenIII tn⟩
    else none)

/-- `claim`: record a match and mark the entity's position as claimed. -/
def claimMatch (org_windows : List WindowIII) (st : MatchState) (key : KeyIII)
    (ent : EntSpan) (confidence : ℚ) : MatchState :=
  let pos := (ent.start_char, ent.end_char)
  ⟨dictSet st.matchesD key
      (some ⟨ent.start_char, ent.end_char, locateWindow ent.start_char org_windows,
        confidence⟩),
    if st.claimed.contains pos then st.claimed else st.claimed ++ [pos]⟩

/-- Pass 1 of `_match_doc_type_headers`: exact normalized title match on
the first unclaimed body entity (confidence 1.0). -/
def pass1 (org_windows : List WindowIII) (bts : List BodyTitle) :
    List PayloadTitle → MatchState → MatchState
  | [], st => st
  | pt :: rest, st =>
    match bts.find? (fun bt => bt.title == pt.title &&
        !(st.claimed.contains (bt.ent.start_char, bt.ent.end_char))) with
    | some bt => pass1 org_windows bts rest (claimMatch org_windows st pt.key bt.ent 1)
    | none => pass1 org_windows bts rest st

/-- Pass 2: tight (space-free) match for titles still unmatched
(confidence 0.9). -/
def pass2 (org_windows : List WindowIII) (bts : List BodyTitle) :
    List PayloadTitle → MatchState → MatchState
  | [], st => st
  | pt :: rest, st =>
    if ((dictGet st.matchesD pt.key).getD none).isSome then
      pass2 org_windows bts rest st
    else
      match bts.find? (fun bt =>
          !(st.claimed.contains (bt.ent.start_char, bt.ent.end_char)) &&
          bt.tightK == pt.tightK && !bt.title.isEmpty && !pt.title.isEmpty) with
      | some bt =>
        pass2 org_windows bts rest (claimMatch org_windows st pt.key bt.ent (mkRat 9 10))
      | none => pass2 org_windows bts rest st

/-- Exact rational product, spelled with `mkRat` (equal to `a * b`). -/
def qmul (a b : ℚ) : ℚ := mkRat (a.num * b.num) (a.den * b.den)

/-- The best-candidate scan of pass 3: unclaimed body titles that contain /
are contained in (or are a prefix of either direction of) the payload
title, scored by the shorter/longer length ratio, strict improvement. -/
def pass3Best (claimed : List (Nat × Nat)) (a : Str) :
    List BodyTitle → (Option BodyTitle × ℚ) → (Option BodyTitle × ℚ)
  | [], best => best
  | bt :: rest, best =>
    if claimed.contains (bt.ent.start_char, bt.ent.end_char) then
      pass3Best claimed a rest best
    else
      let b := bt.title
      if a = [] ∨ b = [] then pass3Best claimed a rest best
      else if b.isPrefixOf a ∨ a.isPrefixOf b ∨ strContains b a ∨ strContains a b then
        let score := if max a.length b.length ≠ 0 then
            mkRat (min a.length b.length : Int) (max a.length b.length) else 0
        if best.2 < score then pass3Best claimed a rest (some bt, score)
        else pass3Best claimed a rest best
      else pass3Best claimed a rest best

/-- Pass 3: containment tolerance, longest payload titles first; claim the
best-scoring body title when its ratio reaches 0.5 (confidence
`0.7 * score`). -/
def pass3 (org_windows : List WindowIII) (bts : List BodyTitle) :
    List PayloadTitle → MatchState → MatchState
  | [], st => st
  | pt :: rest, st =>
    if ((dictGet st.matchesD pt.key).getD none).isSome then
      pass3 org_windows bts rest st
    else
      let best := pass3Best st.claimed pt.title bts (none, 0)
      match best.1 with
      | some bt =>
        if mkRat 1 2 ≤ best.2 then
          pass3 org_windows bts rest
            (claimMatch org_windows st pt.key bt.ent (qmul (mkRat 7 10) best.2))
        else pass3 org_windows bts rest st
      | none => pass3 org_windows bts rest st

/-- `_match_doc_type_headers`: initialize every payload key to `None`,
then run the three passes. -/
def match_doc_type_headers (doc : DocBody) (items : List ItemIII)
    (org_windows : List WindowIII) : List (KeyIII × Option MatchIII) :=
  let pts := payloadTitles items
  let bts := bodyTitles doc
  let st0 : MatchState := ⟨pts.foldl (fun m pt => dictSet m pt.key none) [], []⟩
  let st1 := pass1 org_windows bts pts st0
  let st2 := pass2 org_windows bts pts st1
  let st3 := pass3 org_windows bts
    (stableSort (fun x y => decide (y.title.length ≤ x.title.length)) pts) st2
  st3.matchesD

/-- The consecutive-starts pairing of `_compute_next_bounds_per_window`. -/
def buildBounds (winEnd : Nat) : List Nat → List (Nat × Nat)
  | [] => []
  | [st] => [(st, winEnd)]
  | st :: st2 :: rest => (st, st2) :: buildBounds winEnd (st2 :: rest)

/-- `sorted(set(starts))`. -/
def sortedDedup (xs : List Nat) : List Nat :=
  stableSort (fun a b => decide (a ≤ b)) xs.eraseDups

/-- `_compute_next_bounds_per_window`. -/
def compute_next_bounds (matchesD : List (KeyIII × Option MatchIII))
    (org_windows : List WindowIII) : List (Nat × List (Nat × Nat)) :=
  let starts_by_win := matchesD.foldl (fun d kv =>
    match kv.2 with
    | none => d
    | some mt =>
      match mt.window_index with
      | none => d
      | some w => setdefaultAppend d w mt.start) []
  starts_by_win.map (fun p =>
    (p.1, buildBounds ((org_windows.getD p.1 ⟨[], 0, 0⟩).end_) (sortedDedup p.2)))

/-- A child subdivision (`SubSlice`). -/
structure SubSliceIII where
  title : Str
  headers : List Str
  body : Str
  start : Nat
  end_ : Nat
deriving DecidableEq, Repr

/-- A document slice (`DocSlice`); `ents` entries are the
`(label, text, start_char, end_char)` snapshots. -/
structure DocSliceIII where
  doc_name : Str
  text : Str
  status : Str
  confidence : ℚ
  ents : List (String × Str × Nat × Nat)
  subs : List SubSliceIII
deriving DecidableEq, Repr

/-- An `OrgResult`. -/
structure OrgResultIII where
  org : Str
  status : Str
  docs : List DocSliceIII
deriving DecidableEq, Repr

/-- The summary dict: either the `{"error": ...}` shape returned for a
non-dict payload, or the counter shape assembled at the end of a normal
run. -/
inductive SummaryIII where
  | err (msg : Str)
  | counters (orgs_in_payload org_windows_found doc_type_headers_matched
      doc_type_segments : Nat) (segment_reparsed : Bool)
      (segments_with_subdivisions : Nat)
deriving DecidableEq, Repr

/-- The per-run context of the item loop.  `reparse`
(`_reparse_seg_text`) and `subdivideForItem` (`_allowed_child_titles_for_item`
composed with `_subdivide_seg_text_by_allowed_headers`) run the external
SpaCy pipeline, so they enter the embedding as parameters; their outputs
only populate `ents`/`subs` and the subdivision counter. -/
structure CtxIII where
  doc : DocBody
  org_windows : List WindowIII
  doc_type_matchesD : List (KeyIII × Option MatchIII)
  next_bounds : List (Nat × List (Nat × Nat))
  reparse : Str → List (String × Str × Nat × Nat)
  subdivideForItem : ItemIII → Str → List SubSliceIII
  reparse_segments : Bool
  subdivide_children : Bool

/-- `doc_type_matches.get(key)` for an item (an absent key and a stored
`None` both yield no match). -/
def mtFor (ctx : CtxIII) (item : ItemIII) : Option MatchIII :=
  (dictGet ctx.doc_type_matchesD (docTypeKey item)).getD none

/-- The item sort key `(it.get("paragraph_id") is None, it.get("paragraph_id"))`:
items with a paragraph id first, ordered by id. -/
def itemLe (a b : ItemIII) : Bool :=
  match a.paragraph_id, b.paragraph_id with
  | some x, some y => x ≤ y
  | some _, none => true
  | none, some _ => false
  | none, none => true

/-- The placeholder slice for an item not anchored in the body. -/
def unanchoredSlice (item : ItemIII) : DocSliceIII :=
  ⟨normalize_titleIII item.docNameText, [], "doc_type_unanchored".toList, 0, [], []⟩

/-- The segment slice for an anchored item: the text from the header's end
to the next matched header in the same window (or the window end; or the
document end when the header lies in no window), with the optional second
pass. -/
def segSliceFor (ctx : CtxIII) (item : ItemIII) (mt : MatchIII) : DocSliceIII :=
  let title := normalize_titleIII item.docNameText
  let end_ :=
    match mt.window_index with
    | some w =>
      match (dictGet ctx.next_bounds w).bind (fun b => dictGet b mt.start) with
      | some e => e
      | none => (ctx.org_windows.getD w ⟨[], 0, 0⟩).end_
    | none => ctx.doc.text.length
  let seg_text := pySlice ctx.doc.text mt.end_ end_
  let doReparse := ctx.reparse_segments && !(pyStrip seg_text).isEmpty
  let ents := if doReparse then ctx.reparse seg_text else []
  let subs := if doReparse && ctx.subdivide_children then
      ctx.subdivideForItem item seg_text else []
  ⟨title, seg_text, "doc_type_segment".toList, mt.confidence, ents, subs⟩

/-- The inner item loop: append one slice per item, counting the anchored
ones (`total_slices`). -/
def orgDocsLoop (ctx : CtxIII) : List ItemIII → List DocSliceIII × Nat →
    List DocSliceIII × Nat
  | [], acc => acc
  | item :: rest, (docs, cnt) =>
    match mtFor ctx item with
    | none => orgDocsLoop ctx rest (docs ++ [unanchoredSlice item], cnt)
    | some mt => orgDocsLoop ctx rest (docs ++ [segSliceFor ctx item mt], cnt + 1)

/-- The outer org loop of `divide_body_by_org_and_docs_serieIII`. -/
def orgsLoop (ctx : CtxIII) (items_by_org : List (Int × List ItemIII)) :
    List (Int × Str) → List OrgResultIII × Nat → List OrgResultIII × Nat
  | [], acc => acc
  | om :: rest, (results, total) =>
    let ws := match_org_to_window om.2 ctx.org_windows
    let its := stableSort itemLe ((dictGet items_by_org om.1).getD [])
    let dc := orgDocsLoop ctx its ([], 0)
    orgsLoop ctx items_by_org rest (results ++ [⟨om.2, ws.2, dc.1⟩], total + dc.2)

/-- `divide_body_by_org_and_docs_serieIII` (`body_extractionIII.py`). -/
def divide_body_by_org_and_docs_serieIII (doc : DocBody) (payload : PayloadIII)
    (reparse : Str → List (String × Str × Nat × Nat))
    (subdivideForItem : ItemIII → Str → List SubSliceIII)
    (reparse_segments subdivide_children : Bool) :
    List OrgResultIII × SummaryIII :=
  match payload with
  | .nonDict => ([], .err "invalid_payload".toList)
  | .dict orgs items =>
    let org_map := build_org_map orgs
    let org_windows := collect_org_windows_III doc
    let doc_type_matchesD := match_doc_type_headers doc items org_windows
    let next_bounds := compute_next_bounds doc_type_matchesD org_windows
    let items_by_org := group_items_by_org items
    let ctx : CtxIII := ⟨doc, org_windows, doc_type_matchesD, next_bounds,
      reparse, subdivideForItem, reparse_segments, subdivide_children⟩
    let rt := orgsLoop ctx items_by_org org_map ([], 0)
    (rt.1, .counters org_map.length org_windows.length
      (doc_type_matchesD.filter (fun kv => kv.2.isSome)).length
      rt.2 reparse_segments
      ((rt.1.map (fun r => (r.docs.map (fun d => d.subs.length)).sum)).sum))

/-- The slice emitted for one item (placeholder or segment). -/
def sliceFor (ctx : CtxIII) (it : ItemIII) : DocSliceIII :=
  match mtFor ctx it with
  | none => unanchoredSlice it
  | some mt => segSliceFor ctx it mt

/-- The sorted item list of one org. -/
def orgItems (items_by_org : List (Int × List ItemIII)) (oid : Int) : List ItemIII :=
  stableSort itemLe ((dictGet items_by_org oid).getD [])

/-- The `OrgResult` assembled for one org-map entry. -/
def orgResultFor (ctx : CtxIII) (items_by_org : List (Int × List ItemIII))
    (om : Int × Str) : OrgResultIII :=
  ⟨om.2, (match_org_to_window om.2 ctx.org_windows).2,
    (orgItems items_by_org om.1).map (sliceFor ctx)⟩

/-- The `total_slices` contribution of one org-map entry. -/
def orgCount (ctx : CtxIII) (items_by_org : List (Int × List ItemIII))
    (om : Int × Str) : Nat :=
  (orgItems items_by_org om.1).countP (fun it => (mtFor ctx it).isSome)

theorem orgDocsLoop_eq (ctx : CtxIII) (its : List ItemIII)
    (docs0 : List DocSliceIII) (cnt0 : Nat) :
    orgDocsLoop ctx its (docs0, cnt0) =
      (docs0 ++ its.map (sliceFor ctx),
       cnt0 + its.countP (fun it => (mtFor ctx it).isSome)) := by
  induction its generalizing docs0 cnt0 with
  | nil => simp [orgDocsLoop]
  | cons it rest ih =>
    rw [orgDocsLoop]
    rcases h : mtFor ctx it with _ | mt
    · dsimp only
      rw [ih]
      refine Prod.ext ?_ ?_
      · simp [sliceFor, h]
      · simp [List.countP_cons, h]
    · dsimp only
      rw [ih]
      refine Prod.ext ?_ ?_
      · simp [sliceFor, h]
      · simp only [List.countP_cons, h, Option.isSome_some, if_true]
        omega

theorem orgsLoop_eq (ctx : CtxIII) (items_by_org : List (Int × List ItemIII))
    (oms : List (Int × Str)) (res0 : List OrgResultIII) (tot0 : Nat) :
    orgsLoop ctx items_by_org oms (res0, tot0) =
      (res0 ++ oms.map (orgResultFor ctx items_by_org),
       tot0 + (oms.map (orgCount ctx items_by_org)).sum) := by
  induction oms generalizing res0 tot0 with
  | nil => simp [orgsLoop]
  | cons om rest ih =>
    rw [orgsLoop]
    rw [orgDocsLoop_eq, ih]
    refine Prod.ext ?_ ?_
    · simp [orgResultFor, orgItems]
    · simp only [List.map_cons, List.sum_cons, orgCount, orgItems]
      omega

theorem match_org_to_window_status (n : Str) (ws : List WindowIII) :
    (match_org_to_window n ws).2 = "org_anchored".toList ∨
    (match_org_to_window n ws).2 = "org_unanchored".toList := by
  unfold match_org_to_window
  by_cases h : ws.isEmpty
  · rw [if_pos h]
    right; rfl
  · rw [if_neg h]
    dsimp only
    by_cases h2 : 0 < (bestWindowLoop (simple_token_set n) ws.enum (none, mkRat (-1) 1)).2
    · rw [if_pos h2]; left; rfl
    · rw [if_neg h2]; right; rfl

theorem sliceFor_status (ctx : CtxIII) (it : ItemIII) :
    ((sliceFor ctx it).status = "doc_type_segment".toList ∨
      (sliceFor ctx it).status = "doc_type_unanchored".toList) ∧
    ((sliceFor ctx it).status = "doc_type_segment".toList ↔ (mtFor ctx it).isSome) := by
  rcases h : mtFor ctx it with _ | mt
  · unfold sliceFor
    rw [h]
    exact ⟨Or.inr rfl, by simp [unanchoredSlice]⟩
  · unfold sliceFor
    rw [h]
    exact ⟨Or.inl rfl, by simp [segSliceFor]⟩

theorem countP_filter_status (ctx : CtxIII) (its : List ItemIII) :
    ((its.map (sliceFor ctx)).filter
        (fun d => d.status == "doc_type_segment".toList)).length =
      its.countP (fun it => (mtFor ctx it).isSome) := by
  induction its with
  | nil => rfl
  | cons it rest ih =>
    rw [List.map_cons, List.filter_cons, List.countP_cons]
    rcases (sliceFor_status ctx it).1 with h | h
    · have h1 : (mtFor ctx it).isSome = true := (sliceFor_status ctx it).2.mp h
      rw [h1]
      simp only [h, beq_self_eq_true, if_pos, List.length_cons, ih]
    · have h1 : (mtFor ctx it).isSome = false := by
        rcases h2 : (mtFor ctx it).isSome with _ | _
        · rfl
        · exact absurd ((sliceFor_status ctx it).2.mpr h2) (by rw [h]; decide)
      rw [h1]
      have hne : ((sliceFor ctx it).status == "doc_type_segment".toList) = false := by
        rw [h]; decide
      simp only [hne, Bool.false_eq_true, if_neg, ih, Nat.add_zero, if_false]

/-- The dict-payload run in closed form: one `OrgResult` per org-map entry
and the counter summary. -/
theorem divide_dict_eq (doc : DocBody) (orgs : List OrgEntry) (items : List ItemIII)
    (reparse : Str → List (String × Str × Nat × Nat))
    (subdivideForItem : ItemIII → Str → List SubSliceIII)
    (rs sc : Bool) :
    divide_body_by_org_and_docs_serieIII doc (.dict orgs items) reparse
        subdivideForItem rs sc =
      (let org_windows := collect_org_windows_III doc
       let matchesD := match_doc_type_headers doc items org_windows
       let ctx : CtxIII := ⟨doc, org_windows, matchesD,
         compute_next_bounds matchesD org_windows, reparse, subdivideForItem, rs, sc⟩
       let ibo := group_items_by_org items
       let om := build_org_map orgs
       (om.map (orgResultFor ctx ibo),
        .counters om.length org_windows.length
          (matchesD.filter (fun kv => kv.2.isSome)).length
          ((om.map (orgCount ctx ibo)).sum) rs
          (((om.map (orgResultFor ctx ibo)).map
            (fun r => (r.docs.map (fun d => d.subs.length)).sum)).sum))) := by
  unfold divide_body_by_org_and_docs_serieIII
  dsimp only
  rw [orgsLoop_eq]
  simp

/-- **C9.** The serie III body aligner signals an error for exactly one
condition — the payload not being a structured object — and in that case
fails fast, returning the constant `([], {"error": "invalid_payload"})`
before any alignment work; for every structured payload the run completes
with a counter summary (never the error shape), every organization carries
a first-class status `org_anchored`/`org_unanchored`, every document slice
carries `doc_type_segment`/`doc_type_unanchored`, and the summary's
`doc_type_segments` counter aggregates exactly the emitted segment
slices. -/
theorem serieIII_error_status_spec (doc : DocBody) (payload : PayloadIII)
    (reparse : Str → List (String × Str × Nat × Nat))
    (subdivideForItem : ItemIII → Str → List SubSliceIII) (rs sc : Bool) :
    (divide_body_by_org_and_docs_serieIII doc payload reparse subdivideForItem rs sc
        = ([], SummaryIII.err "invalid_payload".toList) ↔
      payload = PayloadIII.nonDict) ∧
    (∀ orgs items, payload = PayloadIII.dict orgs items →
      (∀ r ∈ (divide_body_by_org_and_docs_serieIII doc payload reparse
          subdivideForItem rs sc).1,
        (r.status = "org_anchored".toList ∨ r.status = "org_unanchored".toList) ∧
        ∀ d ∈ r.docs, d.status = "doc_type_segment".toList ∨
          d.status = "doc_type_unanchored".toList) ∧
      (divide_body_by_org_and_docs_serieIII doc payload reparse
          subdivideForItem rs sc).2 =
        SummaryIII.counters (build_org_map orgs).length
          (collect_org_windows_III doc).length
          ((match_doc_type_headers doc items (collect_org_windows_III doc)).filter
            (fun kv => kv.2.isSome)).length
          (((divide_body_by_org_and_docs_serieIII doc payload reparse
              subdivideForItem rs sc).1.map
            (fun r => (r.docs.filter
              (fun d => d.status == "doc_type_segment".toList)).length)).sum)
          rs
          (((divide_body_by_org_and_docs_serieIII doc payload reparse
              subdivideForItem rs sc).1.map
            (fun r => (r.docs.map (fun d => d.subs.length)).sum)).sum)) := by
  constructor
  · cases payload with
    | nonDict => exact iff_of_true rfl rfl
    | dict orgs items =>
      refine iff_of_false (fun h => ?_) (fun h => PayloadIII.noConfusion h)
      rw [divide_dict_eq] at h
      exact SummaryIII.noConfusion (congrArg Prod.snd h)
  · rintro orgs items rfl
    rw [divide_dict_eq]
    dsimp only
    constructor
    · intro r hr
      rw [List.mem_map] at hr
      obtain ⟨om, -, rfl⟩ := hr
      refine ⟨match_org_to_window_status _ _, ?_⟩
      intro d hd
      rw [orgResultFor, List.mem_map] at hd
      obtain ⟨it, -, rfl⟩ := hd
      exact (sliceFor_status _ it).1
    · congr 1
      rw [List.map_map]
      refine congrArg List.sum (List.map_congr_left (fun om _ => ?_)).symm
      show ((orgResultFor _ _ om).docs.filter
        (fun d => d.status == "doc_type_segment".toList)).length = orgCount _ _ om
      rw [orgResultFor, orgCount]
      exact countP_filter_status _ _

/-- Concrete body and payload for the C9 witness: one org window, one
anchored item and one unanchored item. -/
def wDocC9 : DocBody :=
  ⟨"ORG A\nAviso 7\ncorpo do documento".toList,
    [⟨"ORG_LABEL", "ORG A".toList, 0, 5⟩,
     ⟨"DOC_NAME_LABEL", "Aviso 7".toList, 6, 13⟩]⟩

/-- The structured payload for the C9 witness. -/
def wPayC9 : PayloadIII :=
  .dict [⟨some 0, "ORG A".toList⟩]
    [⟨some 1, [0], "Aviso 7".toList⟩, ⟨some 2, [0], "Edital 9".toList⟩]

/-- Witness: the non-dict payload yields exactly the error pair, and on a
concrete structured payload every status is one of the documented values
while the summary counts the single emitted segment. -/
theorem serieIII_error_status_spec_witness :
    (divide_body_by_org_and_docs_serieIII wDocC9 PayloadIII.nonDict
      (fun _ => []) (fun _ _ => []) true true
        = ([], SummaryIII.err "invalid_payload".toList)) ∧
    (∀ r ∈ (divide_body_by_org_and_docs_serieIII wDocC9 wPayC9
        (fun _ => []) (fun _ _ => []) false true).1,
      (r.status = "org_anchored".toList ∨ r.status = "org_unanchored".toList) ∧
      ∀ d ∈ r.docs, d.status = "doc_type_segment".toList ∨
        d.status = "doc_type_unanchored".toList) :=
  ⟨(serieIII_error_status_spec wDocC9 PayloadIII.nonDict
      (fun _ => []) (fun _ _ => []) true true).1.mpr rfl,
   ((serieIII_error_status_spec wDocC9 wPayC9
      (fun _ => []) (fun _ _ => []) false true).2
      [⟨some 0, "ORG A".toList⟩]
      [⟨some 1, [0], "Aviso 7".toList⟩, ⟨some 2, [0], "Edital 9".toList⟩] rfl).1⟩

end BIII

/-! ### Idempotence of the OCR-cleanup normalizers -/

theorem pyWordsAux_words (s : Str) :
    ∀ cur, (∀ c ∈ cur, isPySpace c = false) →
      ∀ w ∈ pyWordsAux s cur, w ≠ [] ∧ ∀ c ∈ w, isPySpace c = false := by
  induction s with
  | nil =>
    intro cur hcur w hw
    rw [pyWordsAux] at hw
    by_cases h : cur = []
    · rw [if_pos h] at hw
      exact absurd hw (List.not_mem_nil w)
    · rw [if_neg h] at hw
      rcases List.mem_singleton.mp hw with rfl
      refine ⟨fun hc => h (by simpa using congrArg List.reverse hc), ?_⟩
      intro c hc
      exact hcur c (List.mem_reverse.mp hc)
  | cons a rest ih =>
    intro cur hcur w hw
    rw [pyWordsAux] at hw
    by_cases ha : isPySpace a
    · rw [if_pos ha] at hw
      by_cases h : cur = []
      · rw [if_pos h] at hw
        exact ih [] (by simp) w hw
      · rw [if_neg h] at hw
        rcases List.mem_cons.mp hw with rfl | hw2
        · refine ⟨fun hc => h (by simpa using congrArg List.reverse hc), ?_⟩
          intro c hc
          exact hcur c (List.mem_reverse.mp hc)
        · exact ih [] (by simp) w hw2
    · rw [if_neg ha] at hw
      refine ih (a :: cur) ?_ w hw
      intro c hc
      rcases List.mem_cons.mp hc with rfl | hc2
      · exact Bool.not_eq_true _ ▸ (by simpa using ha)
      · exact hcur c hc2

theorem pyWords_words (s : Str) :
    ∀ w ∈ pyWords s, w ≠ [] ∧ ∀ c ∈ w, isPySpace c = false :=
  pyWordsAux_words s [] (by simp)

theorem pyWordsAux_nospace (w : Str) (hw : ∀ c ∈ w, isPySpace c = false) :
    ∀ cur, pyWordsAux w cur =
      if cur = [] ∧ w = [] then [] else [cur.reverse ++ w] := by
  induction w with
  | nil =>
    intro cur
    rw [pyWordsAux]
    by_cases h : cur = []
    · rw [if_pos h, if_pos ⟨h, rfl⟩]
    · rw [if_neg h, if_neg (fun hc => h hc.1)]
      simp
  | cons c rest ih =>
    intro cur
    rw [pyWordsAux, if_neg]
    · rw [ih (fun d hd => hw d (List.mem_cons_of_mem c hd)) (c :: cur),
        if_neg (fun hc => List.noConfusion hc.1)]
      simp
    · have := hw c (List.mem_cons_self c rest)
      simp [this]

theorem pyWordsAux_word_space (w s : Str) (hw : ∀ c ∈ w, isPySpace c = false) :
    ∀ cur, pyWordsAux (w ++ ' ' :: s) cur =
      if cur = [] ∧ w = [] then pyWordsAux s []
      else (cur.reverse ++ w) :: pyWordsAux s [] := by
  induction w with
  | nil =>
    intro cur
    rw [List.nil_append, pyWordsAux, if_pos (by decide)]
    by_cases h : cur = []
    · rw [if_pos h, if_pos ⟨h, rfl⟩]
    · rw [if_neg h, if_neg (fun hc => h hc.1)]
      simp
  | cons c rest ih =>
    intro cur
    rw [List.cons_append, pyWordsAux, if_neg]
    · rw [ih (fun d hd => hw d (List.mem_cons_of_mem c hd)) (c :: cur),
        if_neg (fun hc => List.noConfusion hc.1)]
      simp
    · have := hw c (List.mem_cons_self c rest)
      simp [this]

theorem pyWords_joinSpace (ws : List Str)
    (h : ∀ w ∈ ws, w ≠ [] ∧ ∀ c ∈ w, isPySpace c = false) :
    pyWords (joinSpace ws) = ws := by
  induction ws with
  | nil => rfl
  | cons w rest ih =>
    rcases rest with _ | ⟨w2, rest2⟩
    · show pyWordsAux w [] = [w]
      rw [pyWordsAux_nospace w (h w (by simp)).2 [],
        if_neg (fun hc => (h w (by simp)).1 hc.2)]
      simp
    · show pyWordsAux (w ++ ' ' :: joinSpace (w2 :: rest2)) [] = w :: w2 :: rest2
      rw [pyWordsAux_word_space w _ (h w (by simp)).2 [],
        if_neg (fun hc => (h w (by simp)).1 hc.2)]
      rw [List.reverse_nil, List.nil_append]
      have := ih (fun x hx => h x (List.mem_cons_of_mem w hx))
      rw [show pyWordsAux (joinSpace (w2 :: rest2)) [] = pyWords (joinSpace (w2 :: rest2)) from rfl, this]

theorem collapseWS_idem (s : Str) : collapseWS (collapseWS s) = collapseWS s := by
  unfold collapseWS
  rw [show pyWords (joinSpace (pyWords s)) = pyWords s from
    pyWords_joinSpace (pyWords s) (pyWords_words s)]

theorem mem_joinSpace {c : Char} :
    ∀ {ws : List Str}, c ∈ joinSpace ws → c = ' ' ∨ ∃ w ∈ ws, c ∈ w := by
  intro ws
  induction ws with
  | nil => intro h; exact absurd h (List.not_mem_nil c)
  | cons w rest ih =>
    intro h
    rcases rest with _ | ⟨w2, rest2⟩
    · exact Or.inr ⟨w, by simp, h⟩
    · have h' : c ∈ w ++ ' ' :: joinSpace (w2 :: rest2) := h
      rcases List.mem_append.mp h' with h1 | h2
      · exact Or.inr ⟨w, by simp, h1⟩
      · rcases List.mem_cons.mp h2 with rfl | h3
        · exact Or.inl rfl
        · rcases ih h3 with h4 | ⟨w3, hw3, hc3⟩
          · exact Or.inl h4
          · exact Or.inr ⟨w3, List.mem_cons_of_mem w hw3, hc3⟩

theorem collapseWS_chars {c : Char} {s : Str} (h : c ∈ collapseWS s) :
    c = ' ' ∨ isPySpace c = false := by
  rcases mem_joinSpace h with h1 | ⟨w, hw, hc⟩
  · exact Or.inl h1
  · exact Or.inr ((pyWords_words s w hw).2 c hc)

namespace S3

theorem collapseWS_map_nbsp (x : Str) :
    (collapseWS x).map (fun c => if c.toNat = 0xa0 then ' ' else c) = collapseWS x := by
  have h : ∀ c ∈ collapseWS x, (if c.toNat = 0xa0 then ' ' else c) = id c := by
    intro c hc
    rcases collapseWS_chars hc with rfl | hns
    · simp
    · rw [if_neg]
      · rfl
      · intro hn
        have : isPySpace c = true := by simp [isPySpace, hn]
        rw [this] at hns
        exact Bool.noConfusion hns
  rw [List.map_congr_left h, List.map_id]

theorem normalize_unicode_spaces_idem (s : Str) :
    normalize_unicode_spaces (normalize_unicode_spaces s) =
      normalize_unicode_spaces s := by
  unfold normalize_unicode_spaces
  rw [collapseWS_map_nbsp, collapseWS_idem]

/-- No three consecutive dot-leader characters. -/
def noTriple : Str → Bool
  | a :: b :: c :: rest =>
    !(isDotChar a && isDotChar b && isDotChar c) && noTriple (b :: c :: rest)
  | _ => true

theorem noTriple_tail {a : Char} {s : Str} (h : noTriple (a :: s) = true) :
    noTriple s = true := by
  rcases s with _ | ⟨b, _ | ⟨c, rest⟩⟩
  · rfl
  · rfl
  · rw [noTriple, Bool.and_eq_true] at h
    exact h.2

theorem noTriple_short {s : Str} (h : s.length ≤ 2) : noTriple s = true := by
  rcases s with _ | ⟨a, _ | ⟨b, _ | ⟨c, rest⟩⟩⟩
  · rfl
  · rfl
  · rfl
  · simp at h

theorem noTriple_drop {x : Str} : ∀ {y : Str}, noTriple (x ++ y) = true →
    noTriple y = true := by
  induction x with
  | nil => intro y h; exact h
  | cons a rest ih => intro y h; exact ih (noTriple_tail h)

theorem noTriple_cons_nondot {e : Char} {t : Str} (he : isDotChar e = false)
    (ht : noTriple t = true) : noTriple (e :: t) = true := by
  rcases t with _ | ⟨x, _ | ⟨y, r⟩⟩
  · rfl
  · rfl
  · rw [noTriple, Bool.and_eq_true]
    exact ⟨by simp [he], ht⟩

theorem noTriple_prepend_short {d : Str} {e : Char} {t : Str}
    (hd : d.length ≤ 2) (he : isDotChar e = false) (ht : noTriple t = true) :
    noTriple (d ++ e :: t) = true := by
  rcases d with _ | ⟨a, _ | ⟨b, _ | ⟨x, r⟩⟩⟩
  · exact noTriple_cons_nondot he ht
  · rcases t with _ | ⟨x, r⟩
    · rfl
    · rw [List.cons_append, List.nil_append, noTriple, Bool.and_eq_true]
      exact ⟨by simp [he], noTriple_cons_nondot he ht⟩
  · rw [List.cons_append, List.cons_append, List.nil_append, noTriple,
      Bool.and_eq_true]
    refine ⟨by simp [he], ?_⟩
    rcases t with _ | ⟨x, r⟩
    · rfl
    · rw [noTriple, Bool.and_eq_true]
      exact ⟨by simp [he], noTriple_cons_nondot he ht⟩
  · simp at hd

theorem rdlAux_noTriple : ∀ (s pend : Str), noTriple (rdlAux s pend) = true := by
  intro s
  induction s with
  | nil =>
    intro pend
    rw [rdlAux]
    by_cases h : 3 ≤ pend.length
    · rw [if_pos h]; rfl
    · rw [if_neg h]
      exact noTriple_short (by simpa [Nat.lt_succ_iff] using Nat.lt_of_not_le h)
  | cons c rest ih =>
    intro pend
    rw [rdlAux]
    by_cases hc : isDotChar c
    · rw [if_pos hc]
      exact ih (c :: pend)
    · rw [if_neg hc]
      by_cases h : 3 ≤ pend.length
      · rw [if_pos h, List.nil_append]
        exact noTriple_cons_nondot (by simpa using hc) (ih [])
      · rw [if_neg h]
        refine noTriple_prepend_short ?_ (by simpa using hc) (ih [])
        simpa [Nat.lt_succ_iff] using Nat.lt_of_not_le h

theorem rdlAux_stable : ∀ (s pend : Str), (∀ c ∈ pend, isDotChar c = true) →
    pend.length ≤ 2 → noTriple (pend.reverse ++ s) = true →
    rdlAux s pend = pend.reverse ++ s := by
  intro s
  induction s with
  | nil =>
    intro pend _ hlen _
    rw [rdlAux, if_neg (by omega), List.append_nil]
  | cons c rest ih =>
    intro pend hdots hlen hnt
    rw [rdlAux]
    by_cases hc : isDotChar c
    · rw [if_pos hc]
      have hlen1 : pend.length ≤ 1 := by
        rcases pend with _ | ⟨p1, _ | ⟨p2, _ | ⟨p3, r⟩⟩⟩
        · simp
        · simp
        · exfalso
          have h1 := hdots p1 (by simp)
          have h2 := hdots p2 (by simp)
          rw [show ([p1, p2] : Str).reverse ++ c :: rest = p2 :: p1 :: c :: rest
              from rfl, noTriple, Bool.and_eq_true] at hnt
          have := hnt.1
          rw [h1, h2, hc] at this
          simp at this
        · simp at hlen
      have heq : (c :: pend).reverse ++ rest = pend.reverse ++ c :: rest := by
        rw [List.reverse_cons, List.append_assoc]
        rfl
      rw [ih (c :: pend) ?_ (by simpa using hlen1) (by rw [heq]; exact hnt), heq]
      intro d hd
      rcases List.mem_cons.mp hd with rfl | hd2
      · exact hc
      · exact hdots d hd2
    · rw [if_neg hc, if_neg (by omega)]
      have hrest : noTriple rest = true :=
        noTriple_tail (noTriple_drop (x := pend.reverse) hnt)
      rw [ih [] (by simp) (by simp) (by simpa using hrest)]
      rfl

/-- `_remove_dot_leaders` is idempotent: its output contains no run of
three dot-leader characters, and such strings are fixed points. -/
theorem remove_dot_leaders_idem (s : Str) :
    remove_dot_leaders (remove_dot_leaders s) = remove_dot_leaders s := by
  unfold remove_dot_leaders
  rw [rdlAux_stable (rdlAux s []) [] (by simp) (by simp)
    (by simpa using rdlAux_noTriple s [])]
  rfl

/-- No hyphen is followed by a whitespace run containing a newline. -/
def noWrap : Str → Bool
  | [] => true
  | c :: rest =>
    (if c = '-' then !(decide ('\n' ∈ rest.takeWhile isPySpace)) else true) &&
      noWrap rest

theorem noWrap_tail {c : Char} {s : Str} (h : noWrap (c :: s) = true) :
    noWrap s = true := by
  rw [noWrap, Bool.and_eq_true] at h
  exact h.2

theorem space_ne_hyphen {c : Char} (h : isPySpace c = true) : c ≠ '-' := by
  rintro rfl
  exact Bool.noConfusion h

theorem noWrap_cons_nonhyphen {c : Char} {s : Str} (hc : c ≠ '-')
    (hs : noWrap s = true) : noWrap (c :: s) = true := by
  rw [noWrap, Bool.and_eq_true, if_neg hc]
  exact ⟨rfl, hs⟩

theorem noWrap_space_prepend : ∀ {x : Str}, (∀ c ∈ x, isPySpace c = true) →
    ∀ {t : Str}, noWrap t = true → noWrap (x ++ t) = true := by
  intro x
  induction x with
  | nil => intro _ t ht; exact ht
  | cons a rest ih =>
    intro hx t ht
    rw [List.cons_append]
    exact noWrap_cons_nonhyphen (space_ne_hyphen (hx a (by simp)))
      (ih (fun c hc => hx c (List.mem_cons_of_mem a hc)) ht)

theorem noWrap_dropWhile {s : Str} (h : noWrap s = true) :
    noWrap (s.dropWhile isPySpace) = true := by
  induction s with
  | nil => exact h
  | cons c rest ih =>
    rw [List.dropWhile_cons]
    by_cases hc : isPySpace c
    · rw [if_pos (by simpa using hc)]
      exact ih (noWrap_tail h)
    · rw [if_neg (by simpa using hc)]
      exact h

theorem takeWhile_space_append {x : Str} (hx : ∀ c ∈ x, isPySpace c = true) :
    ∀ {t : Str}, (x ++ t).takeWhile isPySpace = x ++ t.takeWhile isPySpace := by
  induction x with
  | nil => intro t; rfl
  | cons a rest ih =>
    intro t
    rw [List.cons_append, List.takeWhile_cons, if_pos (by simpa using hx a (by simp)),
      ih (fun c hc => hx c (List.mem_cons_of_mem a hc))]
    rfl

/-- An output of the pending-hyphen state is empty or starts with a
non-space character. -/
theorem fhwAux_some_head : ∀ (s ws : Str), fhwAux s (some ws) = [] ∨
    ∃ h t, fhwAux s (some ws) = h :: t ∧ isPySpace h = false := by
  intro s
  induction s with
  | nil =>
    intro ws
    rw [fhwAux]
    by_cases h : '\n' ∈ ws
    · rw [if_pos h]; exact Or.inl rfl
    · rw [if_neg h]
      exact Or.inr ⟨'-', ws.reverse, rfl, by decide⟩
  | cons c rest ih =>
    intro ws
    rw [fhwAux]
    by_cases hc : isPySpace c
    · rw [if_pos hc]
      exact ih (c :: ws)
    · rw [if_neg hc]
      by_cases hn : '\n' ∈ ws
      · rw [if_pos hn, List.nil_append]
        by_cases hh : c = '-'
        · rw [if_pos hh]
          exact ih []
        · rw [if_neg hh]
          exact Or.inr ⟨c, _, rfl, by simpa using hc⟩
      · rw [if_neg hn]
        exact Or.inr ⟨'-', _, rfl, by decide⟩

theorem takeWhile_of_some_output (s ws : Str) :
    (fhwAux s (some ws)).takeWhile isPySpace = [] := by
  rcases fhwAux_some_head s ws with h | ⟨hd, tl, h, hns⟩
  · rw [h]; rfl
  · rw [h, List.takeWhile_cons, if_neg (by simpa using hns)]

theorem takeWhile_space_self {x : Str} (hx : ∀ c ∈ x, isPySpace c = true) :
    x.takeWhile isPySpace = x := by
  have := takeWhile_space_append hx (t := [])
  simpa using this

theorem fhwAux_noWrap : ∀ (s : Str),
    (noWrap (fhwAux s none) = true) ∧
    (∀ ws, (∀ c ∈ ws, isPySpace c = true) → noWrap (fhwAux s (some ws)) = true) := by
  intro s
  induction s with
  | nil =>
    refine ⟨rfl, ?_⟩
    intro ws hws
    rw [fhwAux]
    by_cases h : '\n' ∈ ws
    · rw [if_pos h]; rfl
    · rw [if_neg h]
      have hrev : ∀ c ∈ ws.reverse, isPySpace c = true :=
        fun c hc => hws c (List.mem_reverse.mp hc)
      rw [noWrap, Bool.and_eq_true, if_pos rfl]
      constructor
      · rw [takeWhile_space_self hrev]
        simp only [Bool.not_eq_true', decide_eq_false_iff_not]
        exact fun hmem => h (List.mem_reverse.mp hmem)
      · simpa using noWrap_space_prepend hrev (t := []) rfl
  | cons c rest ih =>
    constructor
    · rw [fhwAux]
      by_cases hc : c = '-'
      · rw [if_pos hc]
        exact ih.2 [] (by simp)
      · rw [if_neg hc]
        exact noWrap_cons_nonhyphen hc ih.1
    · intro ws hws
      rw [fhwAux]
      by_cases hsp : isPySpace c
      · rw [if_pos hsp]
        refine ih.2 (c :: ws) ?_
        intro d hd
        rcases List.mem_cons.mp hd with rfl | h2
        · exact hsp
        · exact hws d h2
      · rw [if_neg hsp]
        by_cases hn : '\n' ∈ ws
        · rw [if_pos hn, List.nil_append]
          by_cases hh : c = '-'
          · rw [if_pos hh]
            exact ih.2 [] (by simp)
          · rw [if_neg hh]
            exact noWrap_cons_nonhyphen hh ih.1
        · rw [if_neg hn]
          have hrev : ∀ d ∈ ws.reverse, isPySpace d = true :=
            fun d hd => hws d (List.mem_reverse.mp hd)
          have hT : noWrap (if c = '-' then fhwAux rest (some [])
              else c :: fhwAux rest none) = true := by
            by_cases hh : c = '-'
            · rw [if_pos hh]; exact ih.2 [] (by simp)
            · rw [if_neg hh]; exact noWrap_cons_nonhyphen hh ih.1
          have hTtake : (if c = '-' then fhwAux rest (some [])
              else c :: fhwAux rest none).takeWhile isPySpace = [] := by
            by_cases hh : c = '-'
            · rw [if_pos hh]; exact takeWhile_of_some_output rest []
            · rw [if_neg hh, List.takeWhile_cons, if_neg (by simpa using hsp)]
          rw [List.cons_append, noWrap, Bool.and_eq_true, if_pos rfl]
          constructor
          · rw [takeWhile_space_append hrev, hTtake, List.append_nil]
            simp only [Bool.not_eq_true', decide_eq_false_iff_not]
            exact fun hmem => hn (List.mem_reverse.mp hmem)
          · exact noWrap_space_prepend hrev hT

theorem fhwAux_stable : ∀ (n : Nat) (s : Str), s.length ≤ n →
    (noWrap s = true → fhwAux s none = s) ∧
    (∀ ws, ¬ ('\n' ∈ ws) →
      ¬ ('\n' ∈ s.takeWhile isPySpace) →
      noWrap (s.dropWhile isPySpace) = true →
      fhwAux s (some ws) = '-' :: ws.reverse ++ s) := by
  intro n
  induction n with
  | zero =>
    intro s hlen
    have hs : s = [] := List.eq_nil_of_length_eq_zero (Nat.le_zero.mp hlen)
    subst hs
    refine ⟨fun _ => rfl, ?_⟩
    intro ws hn _ _
    rw [fhwAux, if_neg hn, List.append_nil]
  | succ n ihn =>
    intro s hlen
    constructor
    · intro hnw
      cases s with
      | nil => rfl
      | cons c rest =>
        have hrest : rest.length ≤ n := by
          simpa [Nat.succ_le_succ_iff] using hlen
        rw [fhwAux]
        by_cases hc : c = '-'
        · rw [if_pos hc]
          rw [noWrap, Bool.and_eq_true, if_pos hc] at hnw
          have h1 : ¬ ('\n' ∈ rest.takeWhile isPySpace) := by
            simpa using hnw.1
          rw [(ihn rest hrest).2 [] (by simp) h1 (noWrap_dropWhile hnw.2)]
          rw [hc]
          rfl
        · rw [if_neg hc]
          rw [(ihn rest hrest).1 (noWrap_tail hnw)]
    · intro ws hn htw hdw
      cases s with
      | nil =>
        rw [fhwAux, if_neg hn, List.append_nil]
      | cons c rest =>
        have hrest : rest.length ≤ n := by
          simpa [Nat.succ_le_succ_iff] using hlen
        rw [fhwAux]
        by_cases hsp : isPySpace c
        · rw [if_pos hsp]
          have htwc : (c :: rest).takeWhile isPySpace = c :: rest.takeWhile isPySpace := by
            rw [List.takeWhile_cons, if_pos (by simpa using hsp)]
          have htw' : ¬ ('\n' ∈ rest.takeWhile isPySpace) := by
            intro h
            exact htw (by rw [htwc]; exact List.mem_cons_of_mem c h)
          have hcn : ¬ ('\n' ∈ c :: ws) := by
            intro h
            rcases List.mem_cons.mp h with hceq | h2
            · exact htw (by rw [htwc, ← hceq]; exact List.mem_cons_self _ _)
            · exact hn h2
          have hdw' : noWrap (rest.dropWhile isPySpace) = true := by
            rw [List.dropWhile_cons, if_pos (by simpa using hsp)] at hdw
            exact hdw
          rw [(ihn rest hrest).2 (c :: ws) hcn htw' hdw']
          simp [List.append_assoc]
        · rw [if_neg hsp, if_neg hn]
          have hdw2 : noWrap (c :: rest) = true := by
            rw [List.dropWhile_cons, if_neg (by simpa using hsp)] at hdw
            exact hdw
          by_cases hh : c = '-'
          · rw [if_pos hh]
            rw [noWrap, Bool.and_eq_true, if_pos hh] at hdw2
            have h1 : ¬ ('\n' ∈ rest.takeWhile isPySpace) := by
              simpa using hdw2.1
            rw [(ihn rest hrest).2 [] (by simp) h1 (noWrap_dropWhile hdw2.2)]
            rw [hh]
            rfl
          · rw [if_neg hh]
            rw [(ihn rest hrest).1 (noWrap_tail hdw2)]

/-- `_fix_hyphen_linewraps` is idempotent: no hyphen in its output is
followed by a whitespace run containing a newline, and such strings are
fixed points. -/
theorem fix_hyphen_linewraps_idem (s : Str) :
    fix_hyphen_linewraps (fix_hyphen_linewraps s) = fix_hyphen_linewraps s := by
  unfold fix_hyphen_linewraps
  exact (fhwAux_stable (fhwAux s none).length (fhwAux s none) le_rfl).1
    (fhwAux_noWrap s).1

end S3

theorem lstrip_of_head {x : Str}
    (h : ∀ c, x.head? = some c → isPySpace c = false) : lstrip x = x := by
  cases x with
  | nil => rfl
  | cons a t =>
    unfold lstrip
    rw [List.dropWhile_cons, if_neg]
    rw [h a rfl]
    exact Bool.false_ne_true

theorem rstrip_of_last {x : Str}
    (h : ∀ c, x.getLast? = some c → isPySpace c = false) : rstrip x = x := by
  unfold rstrip
  have hrev : ∀ c, x.reverse.head? = some c → isPySpace c = false := by
    intro c hc
    exact h c (by rwa [List.head?_reverse] at hc)
  have : x.reverse.dropWhile isPySpace = x.reverse := lstrip_of_head hrev
  rw [this, List.reverse_reverse]

theorem pyStrip_of_ends {x : Str}
    (hh : ∀ c, x.head? = some c → isPySpace c = false)
    (hl : ∀ c, x.getLast? = some c → isPySpace c = false) : pyStrip x = x := by
  unfold pyStrip
  rw [lstrip_of_head hh, rstrip_of_last hl]

theorem joinSpace_ne_nil {ws : List Str}
    (h : ∀ w ∈ ws, w ≠ []) (hne : ws ≠ []) : joinSpace ws ≠ [] := by
  rcases ws with _ | ⟨w, _ | ⟨w2, rest⟩⟩
  · exact absurd rfl hne
  · exact h w (by simp)
  · show w ++ ' ' :: joinSpace (w2 :: rest) ≠ []
    simp

theorem joinSpace_head {ws : List Str}
    (h : ∀ w ∈ ws, w ≠ [] ∧ ∀ c ∈ w, isPySpace c = false) :
    ∀ c, (joinSpace ws).head? = some c → isPySpace c = false := by
  intro c hc
  rcases ws with _ | ⟨w, _ | ⟨w2, rest⟩⟩
  · exact absurd hc (by simp [joinSpace])
  · exact (h w (by simp)).2 c (by
      cases w with
      | nil => exact absurd hc (by simp [joinSpace])
      | cons a t =>
        rw [show joinSpace [a :: t] = a :: t from rfl] at hc
        rcases Option.some_injective _ hc.symm with rfl
        exact List.mem_cons_self _ _)
  · have hw := h w (by simp)
    cases w with
    | nil => exact absurd rfl hw.1
    | cons a t =>
      rw [show joinSpace ((a :: t) :: w2 :: rest) =
        a :: (t ++ ' ' :: joinSpace (w2 :: rest)) from rfl] at hc
      rcases Option.some_injective _ hc.symm with rfl
      exact hw.2 c (List.mem_cons_self _ _)

theorem joinSpace_last {ws : List Str}
    (h : ∀ w ∈ ws, w ≠ [] ∧ ∀ c ∈ w, isPySpace c = false) :
    ∀ c, (joinSpace ws).getLast? = some c → isPySpace c = false := by
  induction ws with
  | nil => intro c hc; exact absurd hc (by simp [joinSpace])
  | cons w rest ih =>
    intro c hc
    rcases rest with _ | ⟨w2, rest2⟩
    · have hmem : c ∈ w := List.mem_of_mem_getLast? (by
        rw [show joinSpace [w] = w from rfl] at hc
        rw [hc]; rfl)
      exact (h w (by simp)).2 c hmem
    · rw [show joinSpace (w :: w2 :: rest2) = w ++ ' ' :: joinSpace (w2 :: rest2)
        from rfl, List.getLast?_append_cons] at hc
      have hjoin_ne : joinSpace (w2 :: rest2) ≠ [] :=
        joinSpace_ne_nil (fun x hx => (h x (List.mem_cons_of_mem w hx)).1) (by simp)
      rcases hJ : joinSpace (w2 :: rest2) with _ | ⟨x, t⟩
      · exact absurd hJ hjoin_ne
      · rw [hJ, List.getLast?_cons_cons] at hc
        exact ih (fun y hy => h y (List.mem_cons_of_mem w hy)) c (by rw [hJ]; exact hc)

theorem collapseWS_stripped (x : Str) : pyStrip (collapseWS x) = collapseWS x :=
  pyStrip_of_ends (joinSpace_head (pyWords_words x)) (joinSpace_last (pyWords_words x))

theorem head?_dropWhile {p : Char → Bool} :
    ∀ {l : Str} {a : Char}, (l.dropWhile p).head? = some a → p a = false := by
  intro l
  induction l with
  | nil => intro a h; cases h
  | cons x t ih =>
    intro a h
    rw [List.dropWhile_cons] at h
    by_cases hx : p x
    · rw [if_pos hx] at h
      exact ih h
    · rw [if_neg hx] at h
      rcases Option.some_injective _ h.symm with rfl
      simpa using hx

theorem rstrip_last_nospace {y : Str} {c : Char}
    (h : (rstrip y).getLast? = some c) : isPySpace c = false := by
  unfold rstrip at h
  rw [List.getLast?_reverse] at h
  exact head?_dropWhile h

theorem rstrip_split (y : Str) :
    y = rstrip y ++ (y.reverse.takeWhile isPySpace).reverse := by
  unfold rstrip
  conv_lhs => rw [← List.reverse_reverse y,
    ← List.takeWhile_append_dropWhile (p := isPySpace) (l := y.reverse)]
  rw [List.reverse_append]

theorem head?_of_rstrip {y : Str} {c : Char}
    (h : (rstrip y).head? = some c) : y.head? = some c := by
  conv_lhs => rw [rstrip_split y]
  rw [List.head?_append, h]
  rfl

theorem head?_dropLast {z : Str} (h : 2 ≤ z.length) :
    z.dropLast.head? = z.head? := by
  rcases z with _ | ⟨a, _ | ⟨b, t⟩⟩
  · simp at h
  · simp at h
  · rfl

theorem pyStrip_rstrip_dropLast (x : Str) :
    pyStrip (rstrip ((collapseWS x).dropLast)) =
      rstrip ((collapseWS x).dropLast) := by
  refine pyStrip_of_ends ?_ (fun c hc => rstrip_last_nospace hc)
  intro c hc
  have hy : ((collapseWS x).dropLast).head? = some c := head?_of_rstrip hc
  have hne : (collapseWS x).dropLast ≠ [] := by
    intro h0
    rw [h0] at hy
    cases hy
  have hlen : 2 ≤ (collapseWS x).length := by
    have h1 : 0 < (collapseWS x).dropLast.length := List.length_pos.mpr hne
    rw [List.length_dropLast] at h1
    omega
  refine joinSpace_head (pyWords_words x) c ?_
  show (collapseWS x).head? = some c
  rw [← head?_dropLast hlen]
  exact hy

namespace S3

theorem normalize_title_stripped (s : Str) :
    pyStrip (normalize_title s) = normalize_title s := by
  unfold normalize_title
  by_cases hb : "**".toList.isPrefixOf (pyStrip s) ∧
      "**".toList.isSuffixOf (pyStrip s) ∧ 4 ≤ (pyStrip s).length
  · rw [if_pos hb]
    by_cases hc : (collapseWS (pyStrip (((pyStrip s).drop 2).take
        ((pyStrip s).length - 4)))).getLast? = some ':'
    · rw [if_pos hc]
      exact pyStrip_rstrip_dropLast _
    · rw [if_neg hc]
      exact collapseWS_stripped _
  · rw [if_neg hb]
    exact pyStrip_idem s

theorem normalize_title_of_stripped (r : Str) (hs : pyStrip r = r)
    (h : ¬("**".toList.isPrefixOf r ∧ "**".toList.isSuffixOf r ∧ 4 ≤ r.length)) :
    normalize_title r = r := by
  unfold normalize_title
  simp only [hs]
  rw [if_neg h]

/-- **C6 counterexample.** Title normalization — and with it the composite
pipeline `_normalize_title ∘ _ocr_clean` — is not idempotent: on
`"****x****"` one application strips only the outer bold delimiters,
leaving `"**x**"`, which a second application strips again to `"x"`. -/
theorem normalize_idem_counterexample :
    (normalize_title (normalize_title ("****x****".toList)) ≠
      normalize_title ("****x****".toList)) ∧
    (normalize_title (ocr_clean (normalize_title (ocr_clean ("****x****".toList)))) ≠
      normalize_title (ocr_clean ("****x****".toList))) := by
  decide

/-- **C6** (amended). The OCR-cleanup stages of the fuzzy-matching
normalization are idempotent — whitespace normalization, dot-leader
removal and hyphen-linewrap removal each satisfy `f (f s) = f s` — while
title normalization is idempotent exactly on the inputs whose normalized
form is not itself again fully bolded (the counterexample shows the bolded
case genuinely fails). -/
theorem normalize_idem_spec :
    (∀ s : Str, normalize_unicode_spaces (normalize_unicode_spaces s) =
      normalize_unicode_spaces s) ∧
    (∀ s : Str, remove_dot_leaders (remove_dot_leaders s) = remove_dot_leaders s) ∧
    (∀ s : Str, fix_hyphen_linewraps (fix_hyphen_linewraps s) =
      fix_hyphen_linewraps s) ∧
    (∀ s : Str, ¬("**".toList.isPrefixOf (normalize_title s) ∧
        "**".toList.isSuffixOf (normalize_title s) ∧
        4 ≤ (normalize_title s).length) →
      normalize_title (normalize_title s) = normalize_title s) :=
  ⟨normalize_unicode_spaces_idem, remove_dot_leaders_idem, fix_hyphen_linewraps_idem,
   fun s h => normalize_title_of_stripped _ (normalize_title_stripped s) h⟩

/-- Witness: a bolded title with a trailing colon normalizes to a plain
title, on which a second normalization is the identity. -/
theorem normalize_idem_spec_witness :
    normalize_title (normalize_title "  **Aviso:**  ".toList) =
      normalize_title "  **Aviso:**  ".toList :=
  normalize_idem_spec.2.2.2 ("  **Aviso:**  ".toList) (by decide)

end S3

end Gazette
